import Mathlib

/-! Branch predictor simulator (`Branch_predictor.cpp`)

A shallow embedding of the six predictors of `Branch_predictor.cpp` and of the
`main` driver, followed by theorems about them.

Conventions of the embedding

* A trace line (`std::string`) is a `List Char`; the trace (`std::vector<std::string>`)
  is a `List Line`.
* The data model is LP64: `unsigned long` and `size_t` have 64 bits, `long` has 64 bits
  (two's complement), `int` has 32 bits.  `long correct` is a `Nat` (a count of lines can
  not reach `2^63`).
* Whatever can go wrong in the C++ program is a `Failure`: the two exceptions of
  `std::stoul`, which nothing catches, and undefined behaviour (reading a `std::string`
  beyond its terminator, accessing a table outside its bounds, casting a value outside the
  enumeration's range).
* A table (`std::vector<E>` of `size` cells, `std::array<E, 2048>`) is the map from
  position to cell, `Nat → E`; every access checks the position against the size of the
  table and is undefined behaviour when it is out of range.
* What a predictor writes to `output` is the list of the pairs `(correct, traces.size())`
  in the order they are written; the separators `","`, `"; "` and `";\n"` are not modelled.
  The copy written to `std::cout` is the same text and is not modelled either.
* The three sweep loops are recursive functions over explicit fuel.
-/

namespace BranchPredictor

/-! ## Enumerations (lines 9-11) -/

/-- The enumeration `enum SingleBitHistory { NotTaken = 0, Taken }` (line 9). -/
inductive SingleBitHistory
  | NotTaken
  | Taken
  deriving DecidableEq

/-- The enumeration `TwoBitSaturatingHistory` (line 10), enumerators in increasing value from 0. -/
inductive TwoBitSaturatingHistory
  | StronglyTaken
  | WeaklyTaken
  | WeaklyNotTaken
  | StronglyNotTaken
  deriving DecidableEq

/-- The enumeration `PredictorSelector` (line 11), enumerators in increasing value from 0. -/
inductive PredictorSelector
  | StronglyGShare
  | WeaklyGShare
  | WeaklyBimodal
  | StronglyBimodal
  deriving DecidableEq

open SingleBitHistory TwoBitSaturatingHistory PredictorSelector

/-- The integer value of a `TwoBitSaturatingHistory` enumerator (integral promotion). -/
def TwoBitSaturatingHistory.toInt : TwoBitSaturatingHistory → Int
  | StronglyTaken => 0
  | WeaklyTaken => 1
  | WeaklyNotTaken => 2
  | StronglyNotTaken => 3

/-- The integer value of a `PredictorSelector` enumerator (integral promotion). -/
def PredictorSelector.toInt : PredictorSelector → Int
  | StronglyGShare => 0
  | WeaklyGShare => 1
  | WeaklyBimodal => 2
  | StronglyBimodal => 3

/-! ## Failures and runs -/

/-- The ways in which the program stops abnormally. -/
inductive Failure
  /-- Exception `std::invalid_argument`, thrown by `std::stoul` when no conversion can be performed. -/
  | invalidArgument
  /-- Exception `std::out_of_range`, thrown by `std::stoul` when the value does not fit `unsigned long`. -/
  | outOfRange
  /-- Undefined behaviour: out-of-bounds access or a cast outside an enumeration's range. -/
  | undefinedBehaviour
  deriving DecidableEq

deriving instance DecidableEq for Except

/-- How a run of a predictor, or of the program, ended. -/
inductive Status
  /-- The function returned. -/
  | completed
  /-- The function stopped with a failure. -/
  | failed (e : Failure)
  /-- The model ran out of fuel in a sweep loop (not a behaviour of the program). -/
  | outOfFuel
  deriving DecidableEq

/-- The pairs `(correct, traces.size())` written to `output`, in order, and how the run ended. -/
structure Run where
  emitted : List (Nat × Nat)
  status : Status
  deriving DecidableEq

/-- Sequential composition of two calls in `main`: the second runs only when the first returns. -/
def Run.andThen (first second : Run) : Run :=
  match first.status with
  | Status.completed => ⟨first.emitted ++ second.emitted, second.status⟩
  | _ => first

/-- A table of cells, as the map from position to cell. -/
abbrev Table (E : Type) := Nat → E

/-- The table with every cell set to `v`: `std::vector<E> table(size, v)`, `std::fill`. -/
def Table.fill {E : Type} (v : E) : Table E := fun _ => v

/-- The table after the assignment `table[index] = v`. -/
def Table.write {E : Type} (table : Table E) (index : Nat) (v : E) : Table E :=
  fun j => if j = index then v else table j

/-! ## Reading a line (lines 26-29, 34, 55) -/

/-- A line of the trace file. -/
abbrev Line := List Char

/-- The constant `constexpr size_t OUTCOME_INDEX = 11`. -/
def OUTCOME_INDEX : Nat := 11

/-- The constant `constexpr char TAKEN_CHAR = 'T'`. -/
def TAKEN_CHAR : Char := 'T'

/-- The constant `constexpr char NOT_TAKEN_CHAR = 'N'`. -/
def NOT_TAKEN_CHAR : Char := 'N'

/-- The expression `trace[pos]` on a `const std::string`: the character at `pos`, the null character
when `pos == size()`, undefined behaviour when `pos > size()`. -/
def charAt (trace : Line) (pos : Nat) : Except Failure Char :=
  match (trace)[pos]? with
  | some c => Except.ok c
  | none => if pos = trace.length then Except.ok (Char.ofNat 0) else Except.error Failure.undefinedBehaviour

/-- The function `isspace` in the "C" locale: space, and the control characters 9 to 13. -/
def isSpace (c : Char) : Bool :=
  c.toNat = 32 || (9 ≤ c.toNat && c.toNat ≤ 13)

/-- The value of a hexadecimal digit, `none` for any other character. -/
def hexDigit (c : Char) : Option Nat :=
  if 48 ≤ c.toNat ∧ c.toNat ≤ 57 then some (c.toNat - 48)
  else if 97 ≤ c.toNat ∧ c.toNat ≤ 102 then some (c.toNat - 87)
  else if 65 ≤ c.toNat ∧ c.toNat ≤ 70 then some (c.toNat - 55)
  else none

/-- The values of the longest run of hexadecimal digits at the start of `s`. -/
def hexDigits : List Char → List Nat
  | [] => []
  | c :: cs =>
    match hexDigit c with
    | some d => d :: hexDigits cs
    | none => []

/-- The number written by a sequence of hexadecimal digit values, most significant first. -/
def hexValue (ds : List Nat) : Nat :=
  ds.foldl (fun acc d => acc * 16 + d) 0

/-- The sign accepted by `strtoul`: whether it is a minus, and the text after it. -/
def takeSign : List Char → Bool × List Char
  | '-' :: rest => (true, rest)
  | '+' :: rest => (false, rest)
  | s => (false, s)

/-- The optional `0x` or `0X` of base 16, consumed only when a hexadecimal digit follows. -/
def dropRadixMark : List Char → List Char
  | '0' :: x :: d :: rest =>
    if (x = 'x' ∨ x = 'X') ∧ (hexDigit d).isSome then d :: rest else '0' :: x :: d :: rest
  | s => s

/-- The call `std::stoul(s, nullptr, 16)`: leading white space, an optional sign, an optional `0x`,
then the longest run of hexadecimal digits; what follows the digits is ignored.  Throws
`std::invalid_argument` when there is no digit and `std::out_of_range` when the value
exceeds `ULONG_MAX`; a minus sign negates the value in `unsigned long`. -/
def stoul (s : List Char) : Except Failure Nat :=
  let signed := takeSign (s.dropWhile isSpace)
  let ds := hexDigits (dropRadixMark signed.2)
  if ds = [] then Except.error Failure.invalidArgument
  else if 2 ^ 64 ≤ hexValue ds then Except.error Failure.outOfRange
  else Except.ok (if signed.1 then (2 ^ 64 - hexValue ds) % 2 ^ 64 else hexValue ds)

/-- Conversion of an `unsigned long` to `long`. -/
def toLong (u : Nat) : Int :=
  if u < 2 ^ 63 then (u : Int) else (u : Int) - 2 ^ 64

/-- Conversion of a `long` to `size_t`. -/
def toSizeT (v : Int) : Nat :=
  (v % 2 ^ 64).toNat

/-- The statement `long address = std::stoul(trace.substr(0, 10), nullptr, 16)`. -/
def readAddress (trace : Line) : Except Failure Int :=
  match stoul (trace.take 10) with
  | Except.ok u => Except.ok (toLong u)
  | Except.error e => Except.error e

/-! ## alwaysTakenPredictor, neverTakenPredictor (lines 31-47) -/

/-- The loop of `alwaysTakenPredictor` (lines 33-35), from the count so far. -/
def alwaysTakenLoop : List Line → Nat → Except Failure Nat
  | [], correct => Except.ok correct
  | trace :: rest, correct =>
    match charAt trace OUTCOME_INDEX with
    | Except.ok c => alwaysTakenLoop rest (if c = TAKEN_CHAR then correct + 1 else correct)
    | Except.error e => Except.error e

/-- The function `alwaysTakenPredictor` (lines 31-38). -/
def alwaysTakenPredictor (traces : List Line) : Run :=
  match alwaysTakenLoop traces 0 with
  | Except.ok correct => ⟨[(correct, traces.length)], Status.completed⟩
  | Except.error e => ⟨[], Status.failed e⟩

/-- The loop of `neverTakenPredictor` (lines 42-44), from the count so far. -/
def neverTakenLoop : List Line → Nat → Except Failure Nat
  | [], correct => Except.ok correct
  | trace :: rest, correct =>
    match charAt trace OUTCOME_INDEX with
    | Except.ok c => neverTakenLoop rest (if c = NOT_TAKEN_CHAR then correct + 1 else correct)
    | Except.error e => Except.error e

/-- The function `neverTakenPredictor` (lines 40-47). -/
def neverTakenPredictor (traces : List Line) : Run :=
  match neverTakenLoop traces 0 with
  | Except.ok correct => ⟨[(correct, traces.length)], Status.completed⟩
  | Except.error e => ⟨[], Status.failed e⟩

/-! ## singleBitBimodalPredictor (lines 49-69) -/

/-- One iteration of the inner loop of `singleBitBimodalPredictor` (lines 55-64): the
table and the count after the line `trace`. -/
def singleBitBody (size : Nat) (table : Table SingleBitHistory) (correct : Nat) (trace : Line) :
    Except Failure (Table SingleBitHistory × Nat) :=
  match readAddress trace with
  | Except.error e => Except.error e
  | Except.ok address =>
    let index := toSizeT (Int.tmod address (size : Int))
    if index < size then
      match charAt trace OUTCOME_INDEX with
      | Except.error e => Except.error e
      | Except.ok c =>
        if table index = Taken ∧ c = TAKEN_CHAR then Except.ok (table, correct + 1)
        else if table index = NotTaken ∧ c = NOT_TAKEN_CHAR then Except.ok (table, correct + 1)
        else Except.ok (table.write index (if c = TAKEN_CHAR then Taken else NotTaken), correct)
    else Except.error Failure.undefinedBehaviour

/-- The inner loop of `singleBitBimodalPredictor` (lines 54-65). -/
def singleBitLoop (size : Nat) :
    List Line → Table SingleBitHistory → Nat → Except Failure (Table SingleBitHistory × Nat)
  | [], table, correct => Except.ok (table, correct)
  | trace :: rest, table, correct =>
    match singleBitBody size table correct trace with
    | Except.ok next => singleBitLoop size rest next.1 next.2
    | Except.error e => Except.error e

/-- The body of the sweep loop of `singleBitBimodalPredictor` for one `size` (lines 51-67):
the pair it writes. -/
def singleBitPass (size : Nat) (traces : List Line) : Except Failure (Nat × Nat) :=
  match singleBitLoop size traces (Table.fill Taken) 0 with
  | Except.ok final => Except.ok (final.2, traces.length)
  | Except.error e => Except.error e

/-- The sweep `for (int size = 16; size <= 2048; size *= (size == 32 ? 4 : 2))` of both
bimodal predictors (lines 50 and 72) around a body `pass`, from the current `size`. -/
def sizeSweep (pass : Nat → Except Failure (Nat × Nat)) : Nat → Nat → Run
  | 0, _ => ⟨[], Status.outOfFuel⟩
  | fuel + 1, size =>
    if size ≤ 2048 then
      match pass size with
      | Except.ok r =>
        let rest := sizeSweep pass fuel (size * (if size = 32 then 4 else 2))
        ⟨r :: rest.emitted, rest.status⟩
      | Except.error e => ⟨[], Status.failed e⟩
    else ⟨[], Status.completed⟩

/-- The function `singleBitBimodalPredictor` (lines 49-69). -/
def singleBitBimodalPredictor (fuel : Nat) (traces : List Line) : Run :=
  sizeSweep (fun size => singleBitPass size traces) fuel 16

/-! ## twoBitBimodalPredictor (lines 71-106) -/

/-- The `switch (entry)` of `twoBitBimodalPredictor` (lines 83-100) and of `gsharePredictor`
(lines 123-140): what is added to `correct`, and the new value of `entry`. -/
def twoBitSwitch (entry : TwoBitSaturatingHistory) (isTaken : Bool) :
    Nat × TwoBitSaturatingHistory :=
  match entry with
  | StronglyTaken => (isTaken.toNat, if isTaken then StronglyTaken else WeaklyTaken)
  | WeaklyTaken => (isTaken.toNat, if isTaken then StronglyTaken else WeaklyNotTaken)
  | WeaklyNotTaken => ((!isTaken).toNat, if isTaken then WeaklyTaken else StronglyNotTaken)
  | StronglyNotTaken => ((!isTaken).toNat, if isTaken then WeaklyNotTaken else StronglyNotTaken)

/-- One iteration of the inner loop of `twoBitBimodalPredictor` (lines 77-100). -/
def twoBitBody (size : Nat) (table : Table TwoBitSaturatingHistory) (correct : Nat)
    (trace : Line) : Except Failure (Table TwoBitSaturatingHistory × Nat) :=
  match readAddress trace with
  | Except.error e => Except.error e
  | Except.ok address =>
    let index := toSizeT (Int.tmod address (size : Int))
    if index < size then
      match charAt trace OUTCOME_INDEX with
      | Except.error e => Except.error e
      | Except.ok c =>
        let isTaken : Bool := c = TAKEN_CHAR
        let r := twoBitSwitch (table index) isTaken
        Except.ok (table.write index r.2, correct + r.1)
    else Except.error Failure.undefinedBehaviour

/-- The inner loop of `twoBitBimodalPredictor` (lines 76-101). -/
def twoBitLoop (size : Nat) :
    List Line → Table TwoBitSaturatingHistory → Nat →
      Except Failure (Table TwoBitSaturatingHistory × Nat)
  | [], table, correct => Except.ok (table, correct)
  | trace :: rest, table, correct =>
    match twoBitBody size table correct trace with
    | Except.ok next => twoBitLoop size rest next.1 next.2
    | Except.error e => Except.error e

/-- The body of the sweep loop of `twoBitBimodalPredictor` for one `size` (lines 73-104). -/
def twoBitPass (size : Nat) (traces : List Line) : Except Failure (Nat × Nat) :=
  match twoBitLoop size traces (Table.fill StronglyTaken) 0 with
  | Except.ok final => Except.ok (final.2, traces.length)
  | Except.error e => Except.error e

/-- The function `twoBitBimodalPredictor` (lines 71-106). -/
def twoBitBimodalPredictor (fuel : Nat) (traces : List Line) : Run :=
  sizeSweep (fun size => twoBitPass size traces) fuel 16

/-! ## gsharePredictor (lines 108-147) -/

/-- The state of the inner loop of `gsharePredictor`: the table, `ghr.bits` and `correct`. -/
structure GShareState where
  table : Table TwoBitSaturatingHistory
  ghr : Nat
  correct : Nat

/-- The assignment `ghr.bits = (ghr.bits << 1) | static_cast<unsigned>(isTaken)` to the
11-bit field `bits` (lines 141 and 177). -/
def shiftHistory (ghr : Nat) (isTaken : Bool) : Nat :=
  ((ghr <<< 1) ||| isTaken.toNat) % 2 ^ 11

/-- One iteration of the inner loop of `gsharePredictor` (lines 118-141). -/
def gshareBody (mask : Nat) (st : GShareState) (trace : Line) : Except Failure GShareState :=
  match readAddress trace with
  | Except.error e => Except.error e
  | Except.ok address =>
    let index := toSizeT (Int.tmod (Int.xor address ((st.ghr &&& mask : Nat) : Int)) 2048)
    if index < 2048 then
      match charAt trace OUTCOME_INDEX with
      | Except.error e => Except.error e
      | Except.ok c =>
        let isTaken : Bool := c = TAKEN_CHAR
        let r := twoBitSwitch (st.table index) isTaken
        Except.ok ⟨st.table.write index r.2, shiftHistory st.ghr isTaken, st.correct + r.1⟩
    else Except.error Failure.undefinedBehaviour

/-- The inner loop of `gsharePredictor` (lines 117-142). -/
def gshareLoop (mask : Nat) : List Line → GShareState → Except Failure GShareState
  | [], st => Except.ok st
  | trace :: rest, st =>
    match gshareBody mask st trace with
    | Except.ok next => gshareLoop mask rest next
    | Except.error e => Except.error e

/-- The call `std::fill(table.begin(), table.end(), v)` on a table of `size` cells. -/
def Table.refill {E : Type} (table : Table E) (size : Nat) (v : E) : Table E :=
  fun j => if j < size then v else table j

/-- The sweep `for (unsigned short mask = 0x7; mask <= 0x7FF; mask = (mask << 1) | 1)` of
`gsharePredictor` (lines 112-146), from the current `mask` and the table as the previous
iteration left it. -/
def gshareSweep (traces : List Line) : Nat → Nat → Table TwoBitSaturatingHistory → Run
  | 0, _, _ => ⟨[], Status.outOfFuel⟩
  | fuel + 1, mask, table =>
    if mask ≤ 0x7FF then
      match gshareLoop mask traces ⟨table.refill 2048 StronglyTaken, 0, 0⟩ with
      | Except.ok final =>
        let rest := gshareSweep traces fuel (((mask <<< 1) ||| 1) % 2 ^ 16) final.table
        ⟨(final.correct, traces.length) :: rest.emitted, rest.status⟩
      | Except.error e => ⟨[], Status.failed e⟩
    else ⟨[], Status.completed⟩

/-- The function `gsharePredictor` (lines 108-147). -/
def gsharePredictor (fuel : Nat) (traces : List Line) : Run :=
  gshareSweep traces fuel 0x7 (Table.fill StronglyTaken)

/-! ## tournamentPredictor (lines 149-203) -/

/-- The cast `static_cast<TwoBitSaturatingHistory>(v)`: undefined outside the values 0 to 3. -/
def castTwoBit (v : Int) : Except Failure TwoBitSaturatingHistory :=
  if v = 0 then Except.ok StronglyTaken
  else if v = 1 then Except.ok WeaklyTaken
  else if v = 2 then Except.ok WeaklyNotTaken
  else if v = 3 then Except.ok StronglyNotTaken
  else Except.error Failure.undefinedBehaviour

/-- The cast `static_cast<PredictorSelector>(v)`: undefined outside the values 0 to 3. -/
def castSelector (v : Int) : Except Failure PredictorSelector :=
  if v = 0 then Except.ok StronglyGShare
  else if v = 1 then Except.ok WeaklyGShare
  else if v = 2 then Except.ok WeaklyBimodal
  else if v = 3 then Except.ok StronglyBimodal
  else Except.error Failure.undefinedBehaviour

/-- The lambda `updateSaturating` (lines 180-186), with the captured `isTaken`. -/
def updateSaturating (isTaken : Bool) (entry : TwoBitSaturatingHistory) :
    Except Failure TwoBitSaturatingHistory :=
  if isTaken then
    if entry = StronglyTaken then Except.ok StronglyTaken else castTwoBit (entry.toInt - 1)
  else
    if entry = StronglyNotTaken then Except.ok StronglyNotTaken else castTwoBit (entry.toInt + 1)

/-- The selector update (lines 192-195). -/
def updateSelector (gCorrect bCorrect : Bool) (sel : PredictorSelector) :
    Except Failure PredictorSelector :=
  if gCorrect ≠ bCorrect then
    if gCorrect = true ∧ sel.toInt > StronglyGShare.toInt then castSelector (sel.toInt - 1)
    else if bCorrect = true ∧ sel.toInt < StronglyBimodal.toInt then castSelector (sel.toInt + 1)
    else Except.ok sel
  else Except.ok sel

/-- The state of the loop of `tournamentPredictor`. -/
structure TournamentState where
  gTable : Table TwoBitSaturatingHistory
  bTable : Table TwoBitSaturatingHistory
  selectorTable : Table PredictorSelector
  ghr : Nat
  correct : Nat

/-- One iteration of the loop of `tournamentPredictor` (lines 160-198). -/
def tournamentBody (st : TournamentState) (trace : Line) : Except Failure TournamentState :=
  match readAddress trace with
  | Except.error e => Except.error e
  | Except.ok address =>
    match charAt trace OUTCOME_INDEX with
    | Except.error e => Except.error e
    | Except.ok c =>
      let isTaken : Bool := c = TAKEN_CHAR
      let gIndex := toSizeT (Int.tmod (Int.xor address (st.ghr : Int)) 2048)
      let bIndex := toSizeT (Int.tmod address 2048)
      if gIndex < 2048 ∧ bIndex < 2048 then
        let gPredict : Bool := (st.gTable gIndex).toInt < WeaklyNotTaken.toInt
        let bPredict : Bool := (st.bTable bIndex).toInt < WeaklyNotTaken.toInt
        let gCorrect : Bool := gPredict = isTaken
        let bCorrect : Bool := bPredict = isTaken
        match updateSaturating isTaken (st.gTable gIndex) with
        | Except.error e => Except.error e
        | Except.ok gEntry =>
          match updateSaturating isTaken (st.bTable bIndex) with
          | Except.error e => Except.error e
          | Except.ok bEntry =>
            match updateSelector gCorrect bCorrect (st.selectorTable bIndex) with
            | Except.error e => Except.error e
            | Except.ok sel =>
              Except.ok
                ⟨st.gTable.write gIndex gEntry, st.bTable.write bIndex bEntry,
                  st.selectorTable.write bIndex sel, shiftHistory st.ghr isTaken,
                  if (sel.toInt ≤ WeaklyGShare.toInt ∧ gCorrect = true) ∨
                      (sel.toInt ≥ WeaklyBimodal.toInt ∧ bCorrect = true)
                    then st.correct + 1 else st.correct⟩
      else Except.error Failure.undefinedBehaviour

/-- The loop of `tournamentPredictor` (lines 159-199). -/
def tournamentLoop : List Line → TournamentState → Except Failure TournamentState
  | [], st => Except.ok st
  | trace :: rest, st =>
    match tournamentBody st trace with
    | Except.ok next => tournamentLoop rest next
    | Except.error e => Except.error e

/-- The state of `tournamentPredictor` before the loop (lines 150-157). -/
def tournamentInit : TournamentState :=
  ⟨Table.fill StronglyTaken, Table.fill StronglyTaken, Table.fill StronglyGShare, 0, 0⟩

/-- The function `tournamentPredictor` (lines 149-203). -/
def tournamentPredictor (traces : List Line) : Run :=
  match tournamentLoop traces tournamentInit with
  | Except.ok final => ⟨[(final.correct, traces.length)], Status.completed⟩
  | Except.error e => ⟨[], Status.failed e⟩

/-! ## main (lines 205-233) -/

/-- The six calls of `main` (lines 222-227) on the lines read from the trace file. -/
def main (fuel : Nat) (traces : List Line) : Run :=
  (alwaysTakenPredictor traces).andThen
    ((neverTakenPredictor traces).andThen
      ((singleBitBimodalPredictor fuel traces).andThen
        ((twoBitBimodalPredictor fuel traces).andThen
          ((gsharePredictor fuel traces).andThen (tournamentPredictor traces)))))

/-! ## Records: the view of the trace taken by the specification -/

/-- A trace record: the branch address and the outcome character of a line. -/
structure TraceRecord where
  address : Nat
  outcome : Char
  deriving DecidableEq

/-- Whether the outcome of a record is taken: its character is `TAKEN_CHAR`. -/
def TraceRecord.taken (r : TraceRecord) : Bool :=
  r.outcome = TAKEN_CHAR

/-- The character at the outcome offset of a line that has one (the terminator of a line
of exactly `OUTCOME_INDEX` characters). -/
def outcomeOf (trace : Line) : Char :=
  trace.getD OUTCOME_INDEX (Char.ofNat 0)

/-- The line `trace` reads as the record `r`: `std::stoul` returns `r.address`, which is
not negative as a `long`, and `trace[OUTCOME_INDEX]` is `r.outcome`. -/
def ReadsAs (trace : Line) (r : TraceRecord) : Prop :=
  readAddress trace = Except.ok (r.address : Int) ∧ charAt trace OUTCOME_INDEX = Except.ok r.outcome

/-- The trace `traces` reads, line by line, as the records `recs`. -/
def TraceReadsAs (traces : List Line) (recs : List TraceRecord) : Prop :=
  List.Forall₂ ReadsAs traces recs

/-- The table sizes of the bimodal sweep, as the specification lists them. -/
def sweepSizes : List Nat := [16, 32, 128, 256, 512, 1024, 2048]

/-- The cell of the 1-bit table that stands for an observed outcome. -/
def outcomeCell (r : TraceRecord) : SingleBitHistory :=
  if r.taken then Taken else NotTaken

/-- Reference procedure of the specification, 1-bit bimodal, one record: with
`index = address mod S`, the record is counted correct iff the cell equals the observed
outcome, and the cell is then overwritten with the observed outcome. -/
def specSingleBitStep (S : Nat) (st : Table SingleBitHistory × Nat) (r : TraceRecord) :
    Table SingleBitHistory × Nat :=
  (st.1.write (r.address % S) (outcomeCell r),
    if st.1 (r.address % S) = outcomeCell r then st.2 + 1 else st.2)

/-- Reference procedure of the specification, 1-bit bimodal, for table size `S`: all cells
start at `Taken`, the records are processed in order, the result is (correct, total). -/
def specSingleBit (S : Nat) (recs : List TraceRecord) : Nat × Nat :=
  ((recs.foldl (specSingleBitStep S) (Table.fill Taken, 0)).2, recs.length)

/-- The trace of the worked example of the specification: address `0x10` three times,
with the outcomes `T`, `T`, `N`. -/
def exampleTrace : List Line :=
  ["0x00000010 T".toList, "0x00000010 T".toList, "0x00000010 N".toList]

/-- The records of `exampleTrace`. -/
def exampleRecords : List TraceRecord :=
  [⟨16, 'T'⟩, ⟨16, 'T'⟩, ⟨16, 'N'⟩]

/-- Saturating counter of the specification, `predict()`: taken iff the value is below
`WeaklyNotTaken` (the value 2). -/
def specPredict (cell : Int) : Bool :=
  cell < 2

/-- Saturating counter of the specification, the update after an observed outcome: one
step toward `StronglyTaken` (the value 0) when taken, one step toward `StronglyNotTaken`
(the value 3) when not taken, saturating at both ends. -/
def specCounterStep (cell : Int) (taken : Bool) : Int :=
  if taken then max (cell - 1) 0 else min (cell + 1) 3

/-- Reference procedure of the specification, 2-bit bimodal, one record: with
`index = address mod S`, the record is counted correct iff the prediction of the cell
equals the observed outcome, and the cell then moves one saturating step. -/
def specTwoBitStep (S : Nat) (st : Table Int × Nat) (r : TraceRecord) : Table Int × Nat :=
  (st.1.write (r.address % S) (specCounterStep (st.1 (r.address % S)) r.taken),
    if specPredict (st.1 (r.address % S)) = r.taken then st.2 + 1 else st.2)

/-- Reference procedure of the specification, 2-bit bimodal, for table size `S`: all cells
start at `StronglyTaken` (the value 0); the result is (correct, total). -/
def specTwoBit (S : Nat) (recs : List TraceRecord) : Nat × Nat :=
  ((recs.foldl (specTwoBitStep S) (Table.fill 0, 0)).2, recs.length)

/-- The integer values of the cells of a table of two-bit counters. -/
def cellValues (table : Table TwoBitSaturatingHistory) : Table Int :=
  fun j => (table j).toInt

/-- The history masks of the gshare sweep, as the specification lists them: `2^w - 1` for
the widths `w` from 3 to 11. -/
def sweepMasks : List Nat :=
  [3, 4, 5, 6, 7, 8, 9, 10, 11].map (fun w => 2 ^ w - 1)

/-- Reference procedure of the specification, gshare, one record, on the state (table,
history, correct): with `index = (address XOR (history AND mask)) mod 2048`, the record is
counted correct iff the prediction of the cell equals the observed outcome, the cell moves
one saturating step, and only then the outcome is shifted into the history, which keeps
11 bits. -/
def specGShareStep (mask : Nat) (st : Table Int × Nat × Nat) (r : TraceRecord) :
    Table Int × Nat × Nat :=
  (st.1.write ((r.address ^^^ (st.2.1 &&& mask)) % 2048)
      (specCounterStep (st.1 ((r.address ^^^ (st.2.1 &&& mask)) % 2048)) r.taken),
    ((st.2.1 <<< 1) ||| r.taken.toNat) % 2 ^ 11,
    if specPredict (st.1 ((r.address ^^^ (st.2.1 &&& mask)) % 2048)) = r.taken
      then st.2.2 + 1 else st.2.2)

/-- Reference procedure of the specification, gshare, for one mask: a table of
`StronglyTaken` (the value 0) and a zero history; the result is (correct, total). -/
def specGShare (mask : Nat) (recs : List TraceRecord) : Nat × Nat :=
  ((recs.foldl (specGShareStep mask) (Table.fill 0, 0, 0)).2.2, recs.length)

/-- The index into `gTable` for a record, from the state before the record:
`(address XOR history) mod 2048`. -/
def gIndexAt (st : TournamentState) (r : TraceRecord) : Nat :=
  (r.address ^^^ st.ghr) % 2048

/-- The index into `bTable` and `selectorTable` for a record: `address mod 2048`. -/
def bIndexAt (r : TraceRecord) : Nat :=
  r.address % 2048

/-- Whether the gshare-style sub-prediction, read from the state before the record, is
correct: (entry < `WeaklyNotTaken`) equals (outcome is taken). -/
def gCorrectAt (st : TournamentState) (r : TraceRecord) : Bool :=
  decide ((st.gTable (gIndexAt st r)).toInt < WeaklyNotTaken.toInt) = r.taken

/-- Whether the bimodal-style sub-prediction, read from the state before the record, is
correct: (entry < `WeaklyNotTaken`) equals (outcome is taken). -/
def bCorrectAt (st : TournamentState) (r : TraceRecord) : Bool :=
  decide ((st.bTable (bIndexAt r)).toInt < WeaklyNotTaken.toInt) = r.taken

/-- Selector rule of the specification (step 5): no change when the two sub-predictors
agree in correctness, one step toward `StronglyGShare` when gshare alone was correct, one
step toward `StronglyBimodal` when bimodal alone was correct, saturating at both ends. -/
def specSelectorStep (gCorrect bCorrect : Bool) (sel : PredictorSelector) : PredictorSelector :=
  if gCorrect = bCorrect then sel
  else if gCorrect then
    match sel with
    | StronglyGShare => StronglyGShare
    | WeaklyGShare => StronglyGShare
    | WeaklyBimodal => WeaklyGShare
    | StronglyBimodal => WeaklyBimodal
  else
    match sel with
    | StronglyGShare => WeaklyGShare
    | WeaklyGShare => WeaklyBimodal
    | WeaklyBimodal => StronglyBimodal
    | StronglyBimodal => StronglyBimodal

/-- A trace on which the bimodal-style sub-predictor of the tournament alone is right at
the next not-taken record of the same address: outcomes `T`, `N`, `N` at address `0x10`. -/
def selectorTrace : List Line :=
  ["0x00000010 T".toList, "0x00000010 N".toList, "0x00000010 N".toList]

/-- The records of `selectorTrace`. -/
def selectorRecords : List TraceRecord :=
  [⟨16, 'T'⟩, ⟨16, 'N'⟩, ⟨16, 'N'⟩]

/-- The body of the sweep loop of `gsharePredictor` for one `mask` on its own (lines
113-145): the table freshly filled with `StronglyTaken`, a zero history register, and the
pair it writes. -/
def gsharePass (mask : Nat) (traces : List Line) : Except Failure (Nat × Nat) :=
  match gshareLoop mask traces ⟨Table.fill StronglyTaken, 0, 0⟩ with
  | Except.ok final => Except.ok (final.correct, traces.length)
  | Except.error e => Except.error e

/-- Whether a text is a non-empty sequence of hexadecimal digits. -/
def allHex (s : List Char) : Bool :=
  !s.isEmpty && s.all (fun c => (hexDigit c).isSome)

/-- Valid address field of the specification: the first 10 characters of the line are a
hexadecimal number, with or without a leading `0x`. -/
def validAddressField (trace : Line) : Bool :=
  allHex (trace.take 10) ||
    (match trace.take 10 with
      | '0' :: x :: rest => (x = 'x' || x = 'X') && allHex rest
      | _ => false)

/-- A trace on which the results of `gsharePredictor` differ between the masks 7 and 15. -/
def historyTrace : List Line :=
  ["0x00000010 T".toList, "0x00000010 N".toList, "0x00000010 N".toList, "0x00000010 N".toList,
    "0x00000011 T".toList, "0x00000010 N".toList, "0x00000013 T".toList, "0x00000010 N".toList]

/-- The records of `historyTrace`. -/
def historyRecords : List TraceRecord :=
  [⟨16, 'T'⟩, ⟨16, 'N'⟩, ⟨16, 'N'⟩, ⟨16, 'N'⟩, ⟨17, 'T'⟩, ⟨16, 'N'⟩, ⟨19, 'T'⟩, ⟨16, 'N'⟩]

/-- A cell of a two-bit table after `n` consecutive records with the outcome `isTaken`,
updated by the `switch` of `twoBitBimodalPredictor` and `gsharePredictor`. -/
def feedSwitch (isTaken : Bool) : Nat → TwoBitSaturatingHistory → TwoBitSaturatingHistory
  | 0, entry => entry
  | n + 1, entry => feedSwitch isTaken n (twoBitSwitch entry isTaken).2

/-- A cell of a two-bit table after `n` consecutive records with the outcome `isTaken`,
updated by the lambda `updateSaturating` of `tournamentPredictor`. -/
def feedLambda (isTaken : Bool) :
    Nat → TwoBitSaturatingHistory → Except Failure TwoBitSaturatingHistory
  | 0, entry => Except.ok entry
  | n + 1, entry =>
    match updateSaturating isTaken entry with
    | Except.ok next => feedLambda isTaken n next
    | Except.error e => Except.error e

/-- The number whose binary digits are the outcomes `os`, oldest first, so that the most
recent outcome is bit 0; taken is the digit 1. -/
def bitsValue (os : List Bool) : Nat :=
  os.foldl (fun acc b => 2 * acc + b.toNat) 0

/-- The last `w` outcomes of a sequence (all of them when there are fewer than `w`). -/
def lastOutcomes (w : Nat) (os : List Bool) : List Bool :=
  os.drop (os.length - w)

/-- The trace of the history example of the specification: outcomes `T`, `N`, `T`. -/
def tntTrace : List Line :=
  ["0x00000010 T".toList, "0x00000020 N".toList, "0x00000030 T".toList]

/-- The records of `tntTrace`. -/
def tntRecords : List TraceRecord :=
  [⟨16, 'T'⟩, ⟨32, 'N'⟩, ⟨48, 'T'⟩]

/-- The states of the loop of `tournamentPredictor` before each line of the trace, in
order, from the state `st` before the first line (the run stops at a failing line). -/
def tournamentStatesBefore : List Line → TournamentState → List TournamentState
  | [], _ => []
  | trace :: rest, st =>
    st :: (match tournamentBody st trace with
      | Except.ok next => tournamentStatesBefore rest next
      | Except.error _ => [])

/-- A trace whose records are all taken, at three different addresses. -/
def takenTrace : List Line :=
  ["0x00000010 T".toList, "0x00000823 T".toList, "0x00000010 T".toList, "0x7fffffff T".toList]

/-- The records of `takenTrace`. -/
def takenRecords : List TraceRecord :=
  [⟨16, 'T'⟩, ⟨2083, 'T'⟩, ⟨16, 'T'⟩, ⟨2147483647, 'T'⟩]

/-- The table sizes visited by the loop header of the bimodal sweeps (lines 50 and 72)
from the current `size`, the loop body left out. -/
def sizeSequence : Nat → Nat → List Nat
  | 0, _ => []
  | fuel + 1, size =>
    if size ≤ 2048 then size :: sizeSequence fuel (size * (if size = 32 then 4 else 2)) else []

/-- The masks visited by the loop header of the gshare sweep (line 112) from the current
`mask`, the loop body left out. -/
def maskSequence : Nat → Nat → List Nat
  | 0, _ => []
  | fuel + 1, mask =>
    if mask ≤ 0x7FF then mask :: maskSequence fuel (((mask <<< 1) ||| 1) % 2 ^ 16) else []

theorem charAt_of_le (trace : Line) (h : OUTCOME_INDEX ≤ trace.length) :
    charAt trace OUTCOME_INDEX = Except.ok (outcomeOf trace) := by
  unfold charAt outcomeOf
  rcases Nat.lt_or_ge OUTCOME_INDEX trace.length with hlt | hge
  · simp [List.getD, List.getElem?_eq_getElem hlt]
  · have hEq : OUTCOME_INDEX = trace.length := Nat.le_antisymm h hge
    have hnone : (trace)[OUTCOME_INDEX]? = none := List.getElem?_eq_none hge
    simp [List.getD, hnone, hEq]

/-! ### The baseline predictors -/

theorem alwaysTakenLoop_eq (traces : List Line) (h : ∀ t ∈ traces, OUTCOME_INDEX ≤ t.length)
    (correct : Nat) :
    alwaysTakenLoop traces correct =
      Except.ok (correct + traces.countP (fun t => outcomeOf t = TAKEN_CHAR)) := by
  induction traces generalizing correct with
  | nil => simp [alwaysTakenLoop]
  | cons t rest ih =>
    have ht := charAt_of_le t (h t (List.mem_cons_self t rest))
    have hrest : ∀ u ∈ rest, OUTCOME_INDEX ≤ u.length := fun u hu =>
      h u (List.mem_cons_of_mem t hu)
    simp only [alwaysTakenLoop, ht, ih hrest, List.countP_cons]
    by_cases hc : outcomeOf t = TAKEN_CHAR
    · simp [hc]; omega
    · simp [hc]

theorem neverTakenLoop_eq (traces : List Line) (h : ∀ t ∈ traces, OUTCOME_INDEX ≤ t.length)
    (correct : Nat) :
    neverTakenLoop traces correct =
      Except.ok (correct + traces.countP (fun t => outcomeOf t = NOT_TAKEN_CHAR)) := by
  induction traces generalizing correct with
  | nil => simp [neverTakenLoop]
  | cons t rest ih =>
    have ht := charAt_of_le t (h t (List.mem_cons_self t rest))
    have hrest : ∀ u ∈ rest, OUTCOME_INDEX ≤ u.length := fun u hu =>
      h u (List.mem_cons_of_mem t hu)
    simp only [neverTakenLoop, ht, ih hrest, List.countP_cons]
    by_cases hc : outcomeOf t = NOT_TAKEN_CHAR
    · simp [hc]; omega
    · simp [hc]

theorem countP_taken_add_notTaken_add_other (traces : List Line) :
    traces.countP (fun t => outcomeOf t = TAKEN_CHAR)
      + traces.countP (fun t => outcomeOf t = NOT_TAKEN_CHAR)
      + traces.countP (fun t => outcomeOf t ≠ TAKEN_CHAR ∧ outcomeOf t ≠ NOT_TAKEN_CHAR)
      = traces.length := by
  induction traces with
  | nil => simp
  | cons t rest ih =>
    simp only [List.countP_cons, List.length_cons]
    split_ifs with h1 h2 h3 h3 h2 h3 h3 <;>
      first
        | omega
        | (exfalso; simp_all [TAKEN_CHAR, NOT_TAKEN_CHAR])

/-- C1. For every trace whose lines all have a character at the outcome offset,
`alwaysTakenPredictor` returns after writing the pair (number of lines whose outcome is
`T`, number of lines) and `neverTakenPredictor` returns after writing the pair (number of
lines whose outcome is `N`, number of lines). -/
theorem baseline_reports_counts (traces : List Line)
    (h : ∀ t ∈ traces, OUTCOME_INDEX ≤ t.length) :
    alwaysTakenPredictor traces =
        ⟨[(traces.countP (fun t => outcomeOf t = TAKEN_CHAR), traces.length)], Status.completed⟩
      ∧ neverTakenPredictor traces =
        ⟨[(traces.countP (fun t => outcomeOf t = NOT_TAKEN_CHAR), traces.length)],
          Status.completed⟩ := by
  constructor
  · simp [alwaysTakenPredictor, alwaysTakenLoop_eq traces h 0]
  · simp [neverTakenPredictor, neverTakenLoop_eq traces h 0]

theorem baseline_reports_counts_witness :
    alwaysTakenPredictor ["0x00000010 T".toList, "0x00000020 N".toList, "0x00000030 T".toList]
        = ⟨[(2, 3)], Status.completed⟩
      ∧ neverTakenPredictor ["0x00000010 T".toList, "0x00000020 N".toList, "0x00000030 T".toList]
        = ⟨[(1, 3)], Status.completed⟩ :=
  baseline_reports_counts
    ["0x00000010 T".toList, "0x00000020 N".toList, "0x00000030 T".toList] (by decide)

/-- C2, as stated, fails: on the one-line trace `0x00000010 X` both baseline predictors
report 0 correct out of 1, and 0 + 0 is not 1. -/
theorem baseline_sum_counterexample :
    alwaysTakenPredictor ["0x00000010 X".toList] = ⟨[(0, 1)], Status.completed⟩
      ∧ neverTakenPredictor ["0x00000010 X".toList] = ⟨[(0, 1)], Status.completed⟩
      ∧ 0 + 0 ≠ 1 := by
  decide

/-- C2, amended. For every trace whose lines all have a character at the outcome offset,
the count of `alwaysTakenPredictor`, the count of `neverTakenPredictor` and the number of
lines whose outcome character is neither `T` nor `N` add up to the total; so the two counts
add up to the total exactly when every outcome character is `T` or `N`. -/
theorem baseline_sum (traces : List Line) (h : ∀ t ∈ traces, OUTCOME_INDEX ≤ t.length) :
    ∃ always never : Nat,
      alwaysTakenPredictor traces = ⟨[(always, traces.length)], Status.completed⟩
        ∧ neverTakenPredictor traces = ⟨[(never, traces.length)], Status.completed⟩
        ∧ always + never
            + traces.countP (fun t => outcomeOf t ≠ TAKEN_CHAR ∧ outcomeOf t ≠ NOT_TAKEN_CHAR)
          = traces.length := by
  refine ⟨traces.countP (fun t => outcomeOf t = TAKEN_CHAR),
    traces.countP (fun t => outcomeOf t = NOT_TAKEN_CHAR), ?_, ?_, ?_⟩
  · simp [alwaysTakenPredictor, alwaysTakenLoop_eq traces h 0]
  · simp [neverTakenPredictor, neverTakenLoop_eq traces h 0]
  · exact countP_taken_add_notTaken_add_other traces

theorem baseline_sum_witness :
    ∃ always never : Nat,
      alwaysTakenPredictor ["0x00000010 T".toList, "0x00000020 N".toList, "0x00000030 X".toList]
          = ⟨[(always, 3)], Status.completed⟩
        ∧ neverTakenPredictor ["0x00000010 T".toList, "0x00000020 N".toList, "0x00000030 X".toList]
          = ⟨[(never, 3)], Status.completed⟩
        ∧ always + never + 1 = 3 :=
  baseline_sum ["0x00000010 T".toList, "0x00000020 N".toList, "0x00000030 X".toList] (by decide)

/-! ### Tables and indices -/

theorem Table.write_self {E : Type} (table : Table E) (i : Nat) :
    table.write i (table i) = table := by
  funext j
  by_cases h : j = i
  · simp [Table.write, h]
  · simp [Table.write, h]

theorem toSizeT_tmod (a S : Nat) (hpos : 0 < S) (hle : S ≤ 2 ^ 64) :
    toSizeT (Int.tmod (a : Int) (S : Int)) = a % S := by
  have h1 : Int.tmod (a : Int) (S : Int) = ((a % S : Nat) : Int) := by
    rw [Int.tmod_eq_emod (Int.ofNat_nonneg a) (Int.ofNat_nonneg S)]
    norm_cast
  have h2 : a % S < S := Nat.mod_lt a hpos
  rw [h1]
  unfold toSizeT
  omega

theorem traceReadsAs_length {traces : List Line} {recs : List TraceRecord}
    (h : TraceReadsAs traces recs) : traces.length = recs.length :=
  List.Forall₂.length_eq h

theorem traceReadsAs_nil_inv {recs : List TraceRecord} (h : TraceReadsAs [] recs) :
    recs = [] := by
  cases h
  rfl

theorem traceReadsAs_cons_inv {t : Line} {ts : List Line} {recs : List TraceRecord}
    (h : TraceReadsAs (t :: ts) recs) :
    ∃ r rs, recs = r :: rs ∧ ReadsAs t r ∧ TraceReadsAs ts rs := by
  cases h with
  | cons hhead htail => exact ⟨_, _, rfl, hhead, htail⟩

theorem exampleTrace_reads : TraceReadsAs exampleTrace exampleRecords :=
  List.Forall₂.cons ⟨by decide, by decide⟩
    (List.Forall₂.cons ⟨by decide, by decide⟩
      (List.Forall₂.cons ⟨by decide, by decide⟩ List.Forall₂.nil))

theorem selectorTrace_reads : TraceReadsAs selectorTrace selectorRecords :=
  List.Forall₂.cons ⟨by decide, by decide⟩
    (List.Forall₂.cons ⟨by decide, by decide⟩
      (List.Forall₂.cons ⟨by decide, by decide⟩ List.Forall₂.nil))

theorem historyTrace_reads : TraceReadsAs historyTrace historyRecords :=
  List.Forall₂.cons ⟨by decide, by decide⟩
    (List.Forall₂.cons ⟨by decide, by decide⟩
      (List.Forall₂.cons ⟨by decide, by decide⟩
        (List.Forall₂.cons ⟨by decide, by decide⟩
          (List.Forall₂.cons ⟨by decide, by decide⟩
            (List.Forall₂.cons ⟨by decide, by decide⟩
              (List.Forall₂.cons ⟨by decide, by decide⟩
                (List.Forall₂.cons ⟨by decide, by decide⟩ List.Forall₂.nil)))))))

/-! ### The sweep loop of the bimodal predictors -/

theorem sizeSweep_of_ok (pass : Nat → Except Failure (Nat × Nat)) (r : Nat → Nat × Nat)
    (h : ∀ S ∈ sweepSizes, pass S = Except.ok (r S)) (fuel : Nat) (hfuel : 8 ≤ fuel) :
    sizeSweep pass fuel 16 = ⟨sweepSizes.map r, Status.completed⟩ := by
  obtain ⟨k, rfl⟩ : ∃ k, fuel = k + 8 := ⟨fuel - 8, by omega⟩
  have h16 := h 16 (by decide)
  have h32 := h 32 (by decide)
  have h128 := h 128 (by decide)
  have h256 := h 256 (by decide)
  have h512 := h 512 (by decide)
  have h1024 := h 1024 (by decide)
  have h2048 := h 2048 (by decide)
  simp [sizeSweep, sweepSizes, h16, h32, h128, h256, h512, h1024, h2048]

theorem sweepSizes_bounds {S : Nat} (h : S ∈ sweepSizes) : 0 < S ∧ S ≤ 2 ^ 64 := by
  simp only [sweepSizes, List.mem_cons, List.mem_singleton, List.not_mem_nil, or_false] at h
  rcases h with h | h | h | h | h | h | h <;> subst h <;> decide

/-! ### singleBitBimodalPredictor -/

theorem singleBitBody_eq_spec (S : Nat) (hpos : 0 < S) (hle : S ≤ 2 ^ 64)
    (table : Table SingleBitHistory) (correct : Nat) (t : Line) (r : TraceRecord)
    (h : ReadsAs t r) (hTN : r.outcome = TAKEN_CHAR ∨ r.outcome = NOT_TAKEN_CHAR) :
    singleBitBody S table correct t = Except.ok (specSingleBitStep S (table, correct) r) := by
  have hlt : r.address % S < S := Nat.mod_lt _ hpos
  have hne : TAKEN_CHAR ≠ NOT_TAKEN_CHAR := by decide
  simp only [singleBitBody, h.1, h.2, toSizeT_tmod r.address S hpos hle, hlt, if_true,
    specSingleBitStep, outcomeCell, TraceRecord.taken]
  have hw := Table.write_self table (r.address % S)
  cases hcell : table (r.address % S) <;> rcases hTN with hc | hc <;>
    rw [hcell] at hw <;> simp [hc, hne, hne.symm, hw]

theorem singleBitLoop_eq_spec (S : Nat) (hpos : 0 < S) (hle : S ≤ 2 ^ 64)
    (traces : List Line) (recs : List TraceRecord) (h : TraceReadsAs traces recs)
    (hTN : ∀ r ∈ recs, r.outcome = TAKEN_CHAR ∨ r.outcome = NOT_TAKEN_CHAR)
    (table : Table SingleBitHistory) (correct : Nat) :
    singleBitLoop S traces table correct
      = Except.ok (recs.foldl (specSingleBitStep S) (table, correct)) := by
  induction traces generalizing recs table correct with
  | nil =>
    rw [traceReadsAs_nil_inv h]
    simp [singleBitLoop]
  | cons t ts ih =>
    obtain ⟨r, rs, rfl, hhead, htail⟩ := traceReadsAs_cons_inv h
    have hr := hTN r (List.mem_cons_self r rs)
    have hrs : ∀ x ∈ rs, x.outcome = TAKEN_CHAR ∨ x.outcome = NOT_TAKEN_CHAR :=
      fun x hx => hTN x (List.mem_cons_of_mem r hx)
    simp only [singleBitLoop, singleBitBody_eq_spec S hpos hle table correct t r hhead hr,
      List.foldl_cons]
    exact ih rs htail hrs _ _

theorem singleBitPass_eq_spec (S : Nat) (hpos : 0 < S) (hle : S ≤ 2 ^ 64)
    (traces : List Line) (recs : List TraceRecord) (h : TraceReadsAs traces recs)
    (hTN : ∀ r ∈ recs, r.outcome = TAKEN_CHAR ∨ r.outcome = NOT_TAKEN_CHAR) :
    singleBitPass S traces = Except.ok (specSingleBit S recs) := by
  simp [singleBitPass, specSingleBit, singleBitLoop_eq_spec S hpos hle traces recs h hTN,
    traceReadsAs_length h]

/-- C3. For every trace that reads as records whose outcomes are all `T` or `N`,
`singleBitBimodalPredictor` returns after writing, for the table sizes 16, 32, 128, 256,
512, 1024, 2048 in this order, the pair of the reference procedure for that size: all
cells start at `Taken`; for each record in order, with `index = address mod S`, the record
is counted correct iff the cell equals the observed outcome, and the cell is overwritten
with the observed outcome. -/
theorem singleBitBimodalPredictor_eq_spec (traces : List Line) (recs : List TraceRecord)
    (h : TraceReadsAs traces recs)
    (hTN : ∀ r ∈ recs, r.outcome = TAKEN_CHAR ∨ r.outcome = NOT_TAKEN_CHAR)
    (fuel : Nat) (hfuel : 8 ≤ fuel) :
    singleBitBimodalPredictor fuel traces
      = ⟨sweepSizes.map (fun S => specSingleBit S recs), Status.completed⟩ := by
  unfold singleBitBimodalPredictor
  apply sizeSweep_of_ok _ _ _ fuel hfuel
  intro S hS
  exact singleBitPass_eq_spec S (sweepSizes_bounds hS).1 (sweepSizes_bounds hS).2 traces recs h hTN

theorem singleBitBimodalPredictor_eq_spec_witness :
    singleBitBimodalPredictor 8 exampleTrace
      = ⟨[(2, 3), (2, 3), (2, 3), (2, 3), (2, 3), (2, 3), (2, 3)], Status.completed⟩ :=
  (singleBitBimodalPredictor_eq_spec exampleTrace exampleRecords exampleTrace_reads
    (by decide) 8 (by decide)).trans (by decide)

/-! ### The two-bit counter -/

theorem twoBitSwitch_entry (entry : TwoBitSaturatingHistory) (isTaken : Bool) :
    (twoBitSwitch entry isTaken).2.toInt = specCounterStep entry.toInt isTaken := by
  cases entry <;> cases isTaken <;> decide

theorem twoBitSwitch_count (entry : TwoBitSaturatingHistory) (isTaken : Bool) :
    (twoBitSwitch entry isTaken).1 = if specPredict entry.toInt = isTaken then 1 else 0 := by
  cases entry <;> cases isTaken <;> decide

theorem cellValues_write (table : Table TwoBitSaturatingHistory) (i : Nat)
    (v : TwoBitSaturatingHistory) :
    cellValues (table.write i v) = (cellValues table).write i v.toInt := by
  funext j
  by_cases h : j = i
  · simp [cellValues, Table.write, h]
  · simp [cellValues, Table.write, h]

theorem cellValues_fill : cellValues (Table.fill StronglyTaken) = Table.fill 0 := by
  funext j
  rfl

theorem add_ite_one (c : Nat) (p : Prop) [Decidable p] :
    c + (if p then 1 else 0) = if p then c + 1 else c := by
  split <;> rfl

/-! ### twoBitBimodalPredictor -/

theorem twoBitBody_eq_spec (S : Nat) (hpos : 0 < S) (hle : S ≤ 2 ^ 64)
    (table : Table TwoBitSaturatingHistory) (correct : Nat) (t : Line) (r : TraceRecord)
    (h : ReadsAs t r) :
    ∃ next, twoBitBody S table correct t = Except.ok next
      ∧ (cellValues next.1, next.2) = specTwoBitStep S (cellValues table, correct) r := by
  have hlt : r.address % S < S := Nat.mod_lt _ hpos
  refine ⟨(table.write (r.address % S) (twoBitSwitch (table (r.address % S)) r.taken).2,
    correct + (twoBitSwitch (table (r.address % S)) r.taken).1), ?_, ?_⟩
  · simp only [twoBitBody, h.1, h.2, toSizeT_tmod r.address S hpos hle, hlt, if_true,
      TraceRecord.taken]
  · simp only [specTwoBitStep, cellValues_write, twoBitSwitch_entry, twoBitSwitch_count,
      add_ite_one, TraceRecord.taken]
    rfl

theorem twoBitLoop_eq_spec (S : Nat) (hpos : 0 < S) (hle : S ≤ 2 ^ 64)
    (traces : List Line) (recs : List TraceRecord) (h : TraceReadsAs traces recs)
    (table : Table TwoBitSaturatingHistory) (correct : Nat) :
    ∃ final, twoBitLoop S traces table correct = Except.ok final
      ∧ (cellValues final.1, final.2)
          = recs.foldl (specTwoBitStep S) (cellValues table, correct) := by
  induction traces generalizing recs table correct with
  | nil =>
    rw [traceReadsAs_nil_inv h]
    exact ⟨(table, correct), rfl, rfl⟩
  | cons t ts ih =>
    obtain ⟨r, rs, rfl, hhead, htail⟩ := traceReadsAs_cons_inv h
    obtain ⟨next, hnext, hspec⟩ := twoBitBody_eq_spec S hpos hle table correct t r hhead
    obtain ⟨final, hfinal, hfold⟩ := ih rs htail next.1 next.2
    refine ⟨final, ?_, ?_⟩
    · simp only [twoBitLoop, hnext, hfinal]
    · rw [hfold, hspec, List.foldl_cons]

theorem twoBitPass_eq_spec (S : Nat) (hpos : 0 < S) (hle : S ≤ 2 ^ 64)
    (traces : List Line) (recs : List TraceRecord) (h : TraceReadsAs traces recs) :
    twoBitPass S traces = Except.ok (specTwoBit S recs) := by
  obtain ⟨final, hfinal, hfold⟩ :=
    twoBitLoop_eq_spec S hpos hle traces recs h (Table.fill StronglyTaken) 0
  rw [cellValues_fill] at hfold
  simp only [twoBitPass, hfinal, specTwoBit, ← hfold, traceReadsAs_length h]

/-- C4. For every trace that reads as records, `twoBitBimodalPredictor` returns after
writing, for the table sizes 16, 32, 128, 256, 512, 1024, 2048 in this order, the pair
(number of records counted correct, number of records) of the reference procedure for
that size: all cells start at `StronglyTaken`; for each record in order, with
`index = address mod S`, the record is counted correct iff (cell < `WeaklyNotTaken`)
equals (outcome is taken), and the cell then moves one step toward `StronglyTaken` when
the outcome is taken and one step toward `StronglyNotTaken` when it is not, saturating at
both ends. -/
theorem twoBitBimodalPredictor_eq_spec (traces : List Line) (recs : List TraceRecord)
    (h : TraceReadsAs traces recs) (fuel : Nat) (hfuel : 8 ≤ fuel) :
    twoBitBimodalPredictor fuel traces
      = ⟨sweepSizes.map (fun S => specTwoBit S recs), Status.completed⟩ := by
  unfold twoBitBimodalPredictor
  apply sizeSweep_of_ok _ _ _ fuel hfuel
  intro S hS
  exact twoBitPass_eq_spec S (sweepSizes_bounds hS).1 (sweepSizes_bounds hS).2 traces recs h

theorem twoBitBimodalPredictor_eq_spec_witness :
    twoBitBimodalPredictor 8 exampleTrace
      = ⟨[(2, 3), (2, 3), (2, 3), (2, 3), (2, 3), (2, 3), (2, 3)], Status.completed⟩ :=
  (twoBitBimodalPredictor_eq_spec exampleTrace exampleRecords exampleTrace_reads
    8 (by decide)).trans (by decide)

/-! ### gsharePredictor -/

theorem toSizeT_tmod_xor (a n : Nat) :
    toSizeT (Int.tmod (Int.xor (a : Int) (n : Int)) 2048) = (a ^^^ n) % 2048 := by
  have h := toSizeT_tmod (a ^^^ n) 2048 (by decide) (by decide)
  exact h

theorem gshareBody_eq_spec (mask : Nat) (st : GShareState) (t : Line) (r : TraceRecord)
    (h : ReadsAs t r) :
    ∃ next, gshareBody mask st t = Except.ok next
      ∧ (cellValues next.table, next.ghr, next.correct)
          = specGShareStep mask (cellValues st.table, st.ghr, st.correct) r := by
  have hlt : (r.address ^^^ (st.ghr &&& mask)) % 2048 < 2048 := Nat.mod_lt _ (by decide)
  refine ⟨⟨st.table.write ((r.address ^^^ (st.ghr &&& mask)) % 2048)
      (twoBitSwitch (st.table ((r.address ^^^ (st.ghr &&& mask)) % 2048)) r.taken).2,
    shiftHistory st.ghr r.taken,
    st.correct + (twoBitSwitch (st.table ((r.address ^^^ (st.ghr &&& mask)) % 2048)) r.taken).1⟩,
    ?_, ?_⟩
  · simp only [gshareBody, h.1, h.2, toSizeT_tmod_xor, hlt, if_true, TraceRecord.taken]
  · simp only [specGShareStep, cellValues_write, twoBitSwitch_entry, twoBitSwitch_count,
      add_ite_one, shiftHistory]
    rfl

theorem gshareLoop_eq_spec (mask : Nat) (traces : List Line) (recs : List TraceRecord)
    (h : TraceReadsAs traces recs) (st : GShareState) :
    ∃ final, gshareLoop mask traces st = Except.ok final
      ∧ (cellValues final.table, final.ghr, final.correct)
          = recs.foldl (specGShareStep mask) (cellValues st.table, st.ghr, st.correct) := by
  induction traces generalizing recs st with
  | nil =>
    rw [traceReadsAs_nil_inv h]
    exact ⟨st, rfl, rfl⟩
  | cons t ts ih =>
    obtain ⟨r, rs, rfl, hhead, htail⟩ := traceReadsAs_cons_inv h
    obtain ⟨next, hnext, hspec⟩ := gshareBody_eq_spec mask st t r hhead
    obtain ⟨final, hfinal, hfold⟩ := ih rs htail next
    refine ⟨final, ?_, ?_⟩
    · simp only [gshareLoop, hnext, hfinal]
    · rw [hfold, hspec, List.foldl_cons]

theorem gshareBody_tail (mask : Nat) (st next : GShareState) (t : Line)
    (h : gshareBody mask st t = Except.ok next)
    (htail : ∀ j, 2048 ≤ j → st.table j = StronglyTaken) :
    ∀ j, 2048 ≤ j → next.table j = StronglyTaken := by
  intro j hj
  cases hA : readAddress t with
  | error e => simp [gshareBody, hA] at h
  | ok address =>
    by_cases hidx : toSizeT (Int.tmod (Int.xor address ((st.ghr &&& mask : Nat) : Int)) 2048) < 2048
    · cases hC : charAt t OUTCOME_INDEX with
      | error e => simp [gshareBody, hA, hC, hidx] at h
      | ok c =>
        simp only [gshareBody, hA, hC, hidx, if_true] at h
        injection h with h
        subst h
        have hne : j ≠ toSizeT (Int.tmod (Int.xor address ((st.ghr &&& mask : Nat) : Int)) 2048) := by
          omega
        simp only [Table.write, hne, if_false]
        exact htail j hj
    · simp [gshareBody, hA, hidx] at h

theorem gshareLoop_tail (mask : Nat) (traces : List Line) (st final : GShareState)
    (h : gshareLoop mask traces st = Except.ok final)
    (htail : ∀ j, 2048 ≤ j → st.table j = StronglyTaken) :
    ∀ j, 2048 ≤ j → final.table j = StronglyTaken := by
  induction traces generalizing st with
  | nil =>
    simp only [gshareLoop] at h
    injection h with h
    subst h
    exact htail
  | cons t ts ih =>
    simp only [gshareLoop] at h
    cases hbody : gshareBody mask st t with
    | error e => simp [hbody] at h
    | ok next =>
      simp only [hbody] at h
      exact ih next h (gshareBody_tail mask st next t hbody htail)

theorem Table.refill_of_tail (table : Table TwoBitSaturatingHistory)
    (htail : ∀ j, 2048 ≤ j → table j = StronglyTaken) :
    table.refill 2048 StronglyTaken = Table.fill StronglyTaken := by
  funext j
  by_cases hj : j < 2048
  · simp [Table.refill, Table.fill, hj]
  · simp [Table.refill, Table.fill, hj, htail j (by omega)]

theorem gshareSweep_step (traces : List Line) (fuel mask : Nat)
    (table : Table TwoBitSaturatingHistory) (hmask : mask ≤ 2047)
    (htail : ∀ j, 2048 ≤ j → table j = StronglyTaken) (final : GShareState)
    (hloop : gshareLoop mask traces ⟨Table.fill StronglyTaken, 0, 0⟩ = Except.ok final) :
    gshareSweep traces (fuel + 1) mask table
      = ⟨(final.correct, traces.length)
            :: (gshareSweep traces fuel (((mask <<< 1) ||| 1) % 2 ^ 16) final.table).emitted,
          (gshareSweep traces fuel (((mask <<< 1) ||| 1) % 2 ^ 16) final.table).status⟩ := by
  simp only [gshareSweep, hmask, if_true, Table.refill_of_tail table htail, hloop]

theorem gshareSweep_of_ok (traces : List Line) (f : Nat → GShareState)
    (h : ∀ m ∈ sweepMasks, gshareLoop m traces ⟨Table.fill StronglyTaken, 0, 0⟩ = Except.ok (f m))
    (fuel : Nat) (hfuel : 10 ≤ fuel) :
    gshareSweep traces fuel 7 (Table.fill StronglyTaken)
      = ⟨sweepMasks.map (fun m => ((f m).correct, traces.length)), Status.completed⟩ := by
  obtain ⟨k, rfl⟩ : ∃ k, fuel = k + 10 := ⟨fuel - 10, by omega⟩
  have hend : ∀ table, gshareSweep traces (k + 1) 4095 table = ⟨[], Status.completed⟩ := by
    intro table
    simp [gshareSweep]
  have h2047 : ∀ table, (∀ j, 2048 ≤ j → table j = StronglyTaken) →
      gshareSweep traces (k + 2) 2047 table = ⟨[((f 2047).correct, traces.length)], Status.completed⟩ := by
    intro table htail
    rw [gshareSweep_step traces (k + 1) 2047 table (by decide) htail (f 2047) (h 2047 (by decide)),
      show (((2047 : Nat) <<< 1) ||| 1) % 2 ^ 16 = 4095 from by decide,
      hend (f 2047).table]
  have h1023 : ∀ table, (∀ j, 2048 ≤ j → table j = StronglyTaken) →
      gshareSweep traces (k + 3) 1023 table = ⟨[((f 1023).correct, traces.length), ((f 2047).correct, traces.length)], Status.completed⟩ := by
    intro table htail
    rw [gshareSweep_step traces (k + 2) 1023 table (by decide) htail (f 1023) (h 1023 (by decide)),
      show (((1023 : Nat) <<< 1) ||| 1) % 2 ^ 16 = 2047 from by decide,
      h2047 (f 1023).table (gshareLoop_tail 1023 traces _ _ (h 1023 (by decide)) (fun _ _ => rfl))]
  have h511 : ∀ table, (∀ j, 2048 ≤ j → table j = StronglyTaken) →
      gshareSweep traces (k + 4) 511 table = ⟨[((f 511).correct, traces.length), ((f 1023).correct, traces.length), ((f 2047).correct, traces.length)], Status.completed⟩ := by
    intro table htail
    rw [gshareSweep_step traces (k + 3) 511 table (by decide) htail (f 511) (h 511 (by decide)),
      show (((511 : Nat) <<< 1) ||| 1) % 2 ^ 16 = 1023 from by decide,
      h1023 (f 511).table (gshareLoop_tail 511 traces _ _ (h 511 (by decide)) (fun _ _ => rfl))]
  have h255 : ∀ table, (∀ j, 2048 ≤ j → table j = StronglyTaken) →
      gshareSweep traces (k + 5) 255 table = ⟨[((f 255).correct, traces.length), ((f 511).correct, traces.length), ((f 1023).correct, traces.length), ((f 2047).correct, traces.length)], Status.completed⟩ := by
    intro table htail
    rw [gshareSweep_step traces (k + 4) 255 table (by decide) htail (f 255) (h 255 (by decide)),
      show (((255 : Nat) <<< 1) ||| 1) % 2 ^ 16 = 511 from by decide,
      h511 (f 255).table (gshareLoop_tail 255 traces _ _ (h 255 (by decide)) (fun _ _ => rfl))]
  have h127 : ∀ table, (∀ j, 2048 ≤ j → table j = StronglyTaken) →
      gshareSweep traces (k + 6) 127 table = ⟨[((f 127).correct, traces.length), ((f 255).correct, traces.length), ((f 511).correct, traces.length), ((f 1023).correct, traces.length), ((f 2047).correct, traces.length)], Status.completed⟩ := by
    intro table htail
    rw [gshareSweep_step traces (k + 5) 127 table (by decide) htail (f 127) (h 127 (by decide)),
      show (((127 : Nat) <<< 1) ||| 1) % 2 ^ 16 = 255 from by decide,
      h255 (f 127).table (gshareLoop_tail 127 traces _ _ (h 127 (by decide)) (fun _ _ => rfl))]
  have h63 : ∀ table, (∀ j, 2048 ≤ j → table j = StronglyTaken) →
      gshareSweep traces (k + 7) 63 table = ⟨[((f 63).correct, traces.length), ((f 127).correct, traces.length), ((f 255).correct, traces.length), ((f 511).correct, traces.length), ((f 1023).correct, traces.length), ((f 2047).correct, traces.length)], Status.completed⟩ := by
    intro table htail
    rw [gshareSweep_step traces (k + 6) 63 table (by decide) htail (f 63) (h 63 (by decide)),
      show (((63 : Nat) <<< 1) ||| 1) % 2 ^ 16 = 127 from by decide,
      h127 (f 63).table (gshareLoop_tail 63 traces _ _ (h 63 (by decide)) (fun _ _ => rfl))]
  have h31 : ∀ table, (∀ j, 2048 ≤ j → table j = StronglyTaken) →
      gshareSweep traces (k + 8) 31 table = ⟨[((f 31).correct, traces.length), ((f 63).correct, traces.length), ((f 127).correct, traces.length), ((f 255).correct, traces.length), ((f 511).correct, traces.length), ((f 1023).correct, traces.length), ((f 2047).correct, traces.length)], Status.completed⟩ := by
    intro table htail
    rw [gshareSweep_step traces (k + 7) 31 table (by decide) htail (f 31) (h 31 (by decide)),
      show (((31 : Nat) <<< 1) ||| 1) % 2 ^ 16 = 63 from by decide,
      h63 (f 31).table (gshareLoop_tail 31 traces _ _ (h 31 (by decide)) (fun _ _ => rfl))]
  have h15 : ∀ table, (∀ j, 2048 ≤ j → table j = StronglyTaken) →
      gshareSweep traces (k + 9) 15 table = ⟨[((f 15).correct, traces.length), ((f 31).correct, traces.length), ((f 63).correct, traces.length), ((f 127).correct, traces.length), ((f 255).correct, traces.length), ((f 511).correct, traces.length), ((f 1023).correct, traces.length), ((f 2047).correct, traces.length)], Status.completed⟩ := by
    intro table htail
    rw [gshareSweep_step traces (k + 8) 15 table (by decide) htail (f 15) (h 15 (by decide)),
      show (((15 : Nat) <<< 1) ||| 1) % 2 ^ 16 = 31 from by decide,
      h31 (f 15).table (gshareLoop_tail 15 traces _ _ (h 15 (by decide)) (fun _ _ => rfl))]
  have h7 : ∀ table, (∀ j, 2048 ≤ j → table j = StronglyTaken) →
      gshareSweep traces (k + 10) 7 table = ⟨[((f 7).correct, traces.length), ((f 15).correct, traces.length), ((f 31).correct, traces.length), ((f 63).correct, traces.length), ((f 127).correct, traces.length), ((f 255).correct, traces.length), ((f 511).correct, traces.length), ((f 1023).correct, traces.length), ((f 2047).correct, traces.length)], Status.completed⟩ := by
    intro table htail
    rw [gshareSweep_step traces (k + 9) 7 table (by decide) htail (f 7) (h 7 (by decide)),
      show (((7 : Nat) <<< 1) ||| 1) % 2 ^ 16 = 15 from by decide,
      h15 (f 7).table (gshareLoop_tail 7 traces _ _ (h 7 (by decide)) (fun _ _ => rfl))]
  exact h7 (Table.fill StronglyTaken) (fun _ _ => rfl)

/-- C5. For every trace that reads as records, `gsharePredictor` returns after writing,
for the masks `2^w - 1`, `w` from 3 to 11 in this order, the pair (number of records
counted correct, number of records) of the reference procedure for that mask: it starts
from a table of `StronglyTaken` and a zero history and, for each record in order, uses
`index = (address XOR (history AND mask)) mod 2048`, counts the record correct iff
(table[index] < `WeaklyNotTaken`) equals (outcome is taken), moves table[index] one
saturating step toward the observed outcome, and only then sets
`history = ((history << 1) OR outcome) mod 2^11`. -/
theorem gsharePredictor_eq_spec (traces : List Line) (recs : List TraceRecord)
    (h : TraceReadsAs traces recs) (fuel : Nat) (hfuel : 10 ≤ fuel) :
    gsharePredictor fuel traces
      = ⟨sweepMasks.map (fun mask => specGShare mask recs), Status.completed⟩ := by
  have hloop : ∀ mask, ∃ final,
      gshareLoop mask traces ⟨Table.fill StronglyTaken, 0, 0⟩ = Except.ok final
        ∧ (cellValues final.table, final.ghr, final.correct)
            = recs.foldl (specGShareStep mask) (Table.fill 0, 0, 0) := by
    intro mask
    have hm := gshareLoop_eq_spec mask traces recs h ⟨Table.fill StronglyTaken, 0, 0⟩
    rw [cellValues_fill] at hm
    exact hm
  choose f hok hspec using hloop
  unfold gsharePredictor
  rw [gshareSweep_of_ok traces f (fun m _ => hok m) fuel hfuel]
  congr 1
  apply List.map_congr_left
  intro mask _
  simp only [specGShare, ← hspec mask, traceReadsAs_length h]

theorem gsharePredictor_eq_spec_witness :
    gsharePredictor 10 historyTrace
      = ⟨[(3, 8), (2, 8), (3, 8), (3, 8), (3, 8), (3, 8), (3, 8), (3, 8), (3, 8)],
          Status.completed⟩ :=
  (gsharePredictor_eq_spec historyTrace historyRecords historyTrace_reads
    10 (by decide)).trans (by decide)

/-! ### tournamentPredictor -/

theorem toSizeT_tmod_2048 (a : Nat) : toSizeT (Int.tmod (a : Int) 2048) = a % 2048 :=
  toSizeT_tmod a 2048 (by decide) (by decide)

theorem updateSaturating_eq (isTaken : Bool) (entry : TwoBitSaturatingHistory) :
    updateSaturating isTaken entry = Except.ok (twoBitSwitch entry isTaken).2 := by
  cases entry <;> cases isTaken <;> decide

theorem updateSelector_eq (gCorrect bCorrect : Bool) (sel : PredictorSelector) :
    updateSelector gCorrect bCorrect sel = Except.ok (specSelectorStep gCorrect bCorrect sel) := by
  cases sel <;> cases gCorrect <;> cases bCorrect <;> decide

theorem tournamentBody_eq (st : TournamentState) (t : Line) (r : TraceRecord)
    (h : ReadsAs t r) :
    tournamentBody st t = Except.ok
      ⟨st.gTable.write (gIndexAt st r) (twoBitSwitch (st.gTable (gIndexAt st r)) r.taken).2,
        st.bTable.write (bIndexAt r) (twoBitSwitch (st.bTable (bIndexAt r)) r.taken).2,
        st.selectorTable.write (bIndexAt r)
          (specSelectorStep (gCorrectAt st r) (bCorrectAt st r) (st.selectorTable (bIndexAt r))),
        shiftHistory st.ghr r.taken,
        if ((specSelectorStep (gCorrectAt st r) (bCorrectAt st r)
                (st.selectorTable (bIndexAt r))).toInt ≤ WeaklyGShare.toInt
              ∧ gCorrectAt st r = true)
            ∨ ((specSelectorStep (gCorrectAt st r) (bCorrectAt st r)
                (st.selectorTable (bIndexAt r))).toInt ≥ WeaklyBimodal.toInt
              ∧ bCorrectAt st r = true)
          then st.correct + 1 else st.correct⟩ := by
  have hg : (r.address ^^^ st.ghr) % 2048 < 2048 := Nat.mod_lt _ (by decide)
  have hb : r.address % 2048 < 2048 := Nat.mod_lt _ (by decide)
  simp only [tournamentBody, h.1, h.2, toSizeT_tmod_xor, toSizeT_tmod_2048, hg, hb, and_self,
    if_true, updateSaturating_eq, updateSelector_eq, gIndexAt, bIndexAt, gCorrectAt, bCorrectAt,
    TraceRecord.taken]

theorem tournamentLoop_append (ts : List Line) (t : Line) (st : TournamentState) :
    tournamentLoop (ts ++ [t]) st =
      match tournamentLoop ts st with
      | Except.ok mid => tournamentBody mid t
      | Except.error e => Except.error e := by
  induction ts generalizing st with
  | nil =>
    simp only [List.nil_append, tournamentLoop]
    cases tournamentBody st t <;> rfl
  | cons u us ih =>
    simp only [List.cons_append, tournamentLoop]
    cases tournamentBody st u with
    | error e => rfl
    | ok next => exact ih next

theorem tournamentLoop_ok (traces : List Line) (recs : List TraceRecord)
    (h : TraceReadsAs traces recs) (st : TournamentState) :
    ∃ final, tournamentLoop traces st = Except.ok final := by
  induction traces generalizing recs st with
  | nil => exact ⟨st, rfl⟩
  | cons t ts ih =>
    obtain ⟨r, rs, rfl, hhead, htail⟩ := traceReadsAs_cons_inv h
    simp only [tournamentLoop, tournamentBody_eq st t r hhead]
    exact ih rs htail _

theorem selector_le_weaklyGShare (sel : PredictorSelector) :
    sel.toInt ≤ WeaklyGShare.toInt ↔ (sel = StronglyGShare ∨ sel = WeaklyGShare) := by
  cases sel <;> decide

theorem selector_ge_weaklyBimodal (sel : PredictorSelector) :
    sel.toInt ≥ WeaklyBimodal.toInt ↔ (sel = WeaklyBimodal ∨ sel = StronglyBimodal) := by
  cases sel <;> decide

theorem tournamentLoop_snoc (traces : List Line) (recs : List TraceRecord) (t : Line)
    (r : TraceRecord) (h : TraceReadsAs traces recs) (ht : ReadsAs t r) :
    ∃ st st', tournamentLoop traces tournamentInit = Except.ok st
      ∧ tournamentBody st t = Except.ok st'
      ∧ tournamentLoop (traces ++ [t]) tournamentInit = Except.ok st' := by
  obtain ⟨st, hst⟩ := tournamentLoop_ok traces recs h tournamentInit
  refine ⟨st, _, hst, tournamentBody_eq st t r ht, ?_⟩
  rw [tournamentLoop_append, hst]
  exact tournamentBody_eq st t r ht

/-- C6. For every trace that reads as records and every further record `r` (so for every
record of every trace, after the records before it), with `st` the state of
`tournamentPredictor` before `r` and `st'` the state after it: the correct count is
incremented by one exactly when the selector cell at `bIndex`, read in `st'` (after the
selector update of this record), is `StronglyGShare` or `WeaklyGShare` and the gshare-style
sub-prediction was correct, or it is `WeaklyBimodal` or `StronglyBimodal` and the
bimodal-style sub-prediction was correct; both sub-predictions are (entry <
`WeaklyNotTaken`) read in `st` from `gTable[(address XOR history) mod 2048]` and
`bTable[address mod 2048]`.  The count of `st'` is the one the predictor reports. -/
theorem tournament_counts_record (traces : List Line) (recs : List TraceRecord) (t : Line)
    (r : TraceRecord) (h : TraceReadsAs traces recs) (ht : ReadsAs t r) :
    ∃ st st', tournamentLoop traces tournamentInit = Except.ok st
      ∧ tournamentLoop (traces ++ [t]) tournamentInit = Except.ok st'
      ∧ tournamentPredictor (traces ++ [t])
          = ⟨[(st'.correct, traces.length + 1)], Status.completed⟩
      ∧ st'.correct =
          if ((st'.selectorTable (bIndexAt r) = StronglyGShare
                  ∨ st'.selectorTable (bIndexAt r) = WeaklyGShare) ∧ gCorrectAt st r = true)
              ∨ ((st'.selectorTable (bIndexAt r) = WeaklyBimodal
                  ∨ st'.selectorTable (bIndexAt r) = StronglyBimodal) ∧ bCorrectAt st r = true)
            then st.correct + 1 else st.correct := by
  obtain ⟨st, st', hst, hbody, hloop⟩ := tournamentLoop_snoc traces recs t r h ht
  refine ⟨st, st', hst, hloop, ?_, ?_⟩
  · simp [tournamentPredictor, hloop]
  · rw [tournamentBody_eq st t r ht] at hbody
    injection hbody with hbody
    subst hbody
    simp only [Table.write, if_true, selector_le_weaklyGShare, selector_ge_weaklyBimodal]

theorem tournament_counts_record_witness :
    ∃ st st', tournamentLoop selectorTrace tournamentInit = Except.ok st
      ∧ tournamentLoop (selectorTrace ++ ["0x00000010 N".toList]) tournamentInit = Except.ok st'
      ∧ tournamentPredictor (selectorTrace ++ ["0x00000010 N".toList])
          = ⟨[(st'.correct, selectorTrace.length + 1)], Status.completed⟩
      ∧ st'.correct =
          if ((st'.selectorTable (bIndexAt ⟨16, 'N'⟩) = StronglyGShare
                  ∨ st'.selectorTable (bIndexAt ⟨16, 'N'⟩) = WeaklyGShare)
                ∧ gCorrectAt st ⟨16, 'N'⟩ = true)
              ∨ ((st'.selectorTable (bIndexAt ⟨16, 'N'⟩) = WeaklyBimodal
                  ∨ st'.selectorTable (bIndexAt ⟨16, 'N'⟩) = StronglyBimodal)
                ∧ bCorrectAt st ⟨16, 'N'⟩ = true)
            then st.correct + 1 else st.correct :=
  tournament_counts_record selectorTrace selectorRecords "0x00000010 N".toList ⟨16, 'N'⟩
    selectorTrace_reads ⟨by decide, by decide⟩

/-- C7. For every trace that reads as records and every further record `r`, with `st` the
state of `tournamentPredictor` before `r` and `st'` the state after it: every selector cell
other than the one at `bIndex = address mod 2048` is unchanged; the cell at `bIndex` is
unchanged when the two sub-predictions were both correct or both wrong, moves exactly one
step toward `StronglyGShare` (the value 0), saturating there, when only gshare was correct,
and moves exactly one step toward `StronglyBimodal` (the value 3), saturating there, when
only bimodal was correct. -/
theorem tournament_selector_update (traces : List Line) (recs : List TraceRecord) (t : Line)
    (r : TraceRecord) (h : TraceReadsAs traces recs) (ht : ReadsAs t r) :
    ∃ st st', tournamentLoop traces tournamentInit = Except.ok st
      ∧ tournamentLoop (traces ++ [t]) tournamentInit = Except.ok st'
      ∧ (∀ j, j ≠ bIndexAt r → st'.selectorTable j = st.selectorTable j)
      ∧ (gCorrectAt st r = bCorrectAt st r →
          st'.selectorTable (bIndexAt r) = st.selectorTable (bIndexAt r))
      ∧ (gCorrectAt st r = true → bCorrectAt st r = false →
          (st'.selectorTable (bIndexAt r)).toInt
            = max ((st.selectorTable (bIndexAt r)).toInt - 1) 0)
      ∧ (gCorrectAt st r = false → bCorrectAt st r = true →
          (st'.selectorTable (bIndexAt r)).toInt
            = min ((st.selectorTable (bIndexAt r)).toInt + 1) 3) := by
  obtain ⟨st, st', hst, hbody, hloop⟩ := tournamentLoop_snoc traces recs t r h ht
  refine ⟨st, st', hst, hloop, ?_⟩
  rw [tournamentBody_eq st t r ht] at hbody
  injection hbody with hbody
  subst hbody
  refine ⟨?_, ?_, ?_, ?_⟩
  · intro j hj
    simp only [Table.write, hj, if_false]
  · intro hagree
    simp only [Table.write, if_true, specSelectorStep, hagree]
  · intro hg hb
    simp only [Table.write, if_true, hg, hb]
    cases st.selectorTable (bIndexAt r) <;> decide
  · intro hg hb
    simp only [Table.write, if_true, hg, hb]
    cases st.selectorTable (bIndexAt r) <;> decide

theorem tournament_selector_update_witness :
    ∃ st st', tournamentLoop selectorTrace tournamentInit = Except.ok st
      ∧ tournamentLoop (selectorTrace ++ ["0x00000010 N".toList]) tournamentInit = Except.ok st'
      ∧ (∀ j, j ≠ bIndexAt ⟨16, 'N'⟩ → st'.selectorTable j = st.selectorTable j)
      ∧ (gCorrectAt st ⟨16, 'N'⟩ = bCorrectAt st ⟨16, 'N'⟩ →
          st'.selectorTable (bIndexAt ⟨16, 'N'⟩) = st.selectorTable (bIndexAt ⟨16, 'N'⟩))
      ∧ (gCorrectAt st ⟨16, 'N'⟩ = true → bCorrectAt st ⟨16, 'N'⟩ = false →
          (st'.selectorTable (bIndexAt ⟨16, 'N'⟩)).toInt
            = max ((st.selectorTable (bIndexAt ⟨16, 'N'⟩)).toInt - 1) 0)
      ∧ (gCorrectAt st ⟨16, 'N'⟩ = false → bCorrectAt st ⟨16, 'N'⟩ = true →
          (st'.selectorTable (bIndexAt ⟨16, 'N'⟩)).toInt
            = min ((st.selectorTable (bIndexAt ⟨16, 'N'⟩)).toInt + 1) 3) :=
  tournament_selector_update selectorTrace selectorRecords "0x00000010 N".toList ⟨16, 'N'⟩
    selectorTrace_reads ⟨by decide, by decide⟩

/-! ### The sweeps run to completion -/

theorem singleBitBody_ok (S : Nat) (hpos : 0 < S) (hle : S ≤ 2 ^ 64)
    (table : Table SingleBitHistory) (correct : Nat) (t : Line) (r : TraceRecord)
    (h : ReadsAs t r) :
    ∃ next, singleBitBody S table correct t = Except.ok next := by
  have hlt : r.address % S < S := Nat.mod_lt _ hpos
  simp only [singleBitBody, h.1, h.2, toSizeT_tmod r.address S hpos hle, hlt, if_true]
  split
  · exact ⟨_, rfl⟩
  · split
    · exact ⟨_, rfl⟩
    · exact ⟨_, rfl⟩

theorem singleBitLoop_ok (S : Nat) (hpos : 0 < S) (hle : S ≤ 2 ^ 64)
    (traces : List Line) (recs : List TraceRecord) (h : TraceReadsAs traces recs)
    (table : Table SingleBitHistory) (correct : Nat) :
    ∃ final, singleBitLoop S traces table correct = Except.ok final := by
  induction traces generalizing recs table correct with
  | nil => exact ⟨(table, correct), rfl⟩
  | cons t ts ih =>
    obtain ⟨r, rs, rfl, hhead, htail⟩ := traceReadsAs_cons_inv h
    obtain ⟨next, hnext⟩ := singleBitBody_ok S hpos hle table correct t r hhead
    simp only [singleBitLoop, hnext]
    exact ih rs htail _ _

theorem singleBitPass_ok (S : Nat) (hpos : 0 < S) (hle : S ≤ 2 ^ 64)
    (traces : List Line) (recs : List TraceRecord) (h : TraceReadsAs traces recs) :
    ∃ r, singleBitPass S traces = Except.ok r := by
  obtain ⟨final, hfinal⟩ := singleBitLoop_ok S hpos hle traces recs h (Table.fill Taken) 0
  exact ⟨(final.2, traces.length), by simp only [singleBitPass, hfinal]⟩

theorem sizeSweep_completes (pass : Nat → Except Failure (Nat × Nat))
    (h : ∀ S ∈ sweepSizes, ∃ r, pass S = Except.ok r) (fuel : Nat) (hfuel : 8 ≤ fuel) :
    (sizeSweep pass fuel 16).status = Status.completed
      ∧ (sizeSweep pass fuel 16).emitted.map Except.ok = sweepSizes.map pass := by
  have h' : ∀ S, ∃ r, S ∈ sweepSizes → pass S = Except.ok r := by
    intro S
    by_cases hS : S ∈ sweepSizes
    · obtain ⟨r, hr⟩ := h S hS
      exact ⟨r, fun _ => hr⟩
    · exact ⟨(0, 0), fun hmem => absurd hmem hS⟩
  choose r hr using h'
  rw [sizeSweep_of_ok pass r hr fuel hfuel]
  refine ⟨rfl, ?_⟩
  rw [List.map_map]
  apply List.map_congr_left
  intro S hS
  exact (hr S hS).symm

theorem gshareSweep_completes (traces : List Line) (recs : List TraceRecord)
    (h : TraceReadsAs traces recs) (fuel : Nat) (hfuel : 10 ≤ fuel) :
    (gsharePredictor fuel traces).status = Status.completed
      ∧ (gsharePredictor fuel traces).emitted.map Except.ok
          = sweepMasks.map (fun mask => gsharePass mask traces) := by
  have hloop : ∀ mask, ∃ final,
      gshareLoop mask traces ⟨Table.fill StronglyTaken, 0, 0⟩ = Except.ok final := by
    intro mask
    obtain ⟨final, hfinal, _⟩ :=
      gshareLoop_eq_spec mask traces recs h ⟨Table.fill StronglyTaken, 0, 0⟩
    exact ⟨final, hfinal⟩
  choose f hok using hloop
  unfold gsharePredictor
  rw [gshareSweep_of_ok traces f (fun m _ => hok m) fuel hfuel]
  refine ⟨rfl, ?_⟩
  rw [List.map_map]
  apply List.map_congr_left
  intro mask _
  simp only [Function.comp, gsharePass, hok mask]

/-- C8. For every trace that reads as records (and enough fuel for the loop model),
`singleBitBimodalPredictor` and `twoBitBimodalPredictor` each return after writing exactly
7 results, the results of the table sizes 16, 32, 128, 256, 512, 1024, 2048 in this order,
and `gsharePredictor` returns after writing exactly 9 results, the results of the masks
7, 15, 31, 63, 127, 255, 511, 1023, 2047 (`2^w - 1` for `w` from 3 to 11) in this order. -/
theorem sweeps_emit_in_order (traces : List Line) (recs : List TraceRecord)
    (h : TraceReadsAs traces recs) (fuel : Nat) (hfuel : 10 ≤ fuel) :
    sweepSizes = [16, 32, 128, 256, 512, 1024, 2048]
      ∧ sweepMasks = [7, 15, 31, 63, 127, 255, 511, 1023, 2047]
      ∧ (singleBitBimodalPredictor fuel traces).status = Status.completed
      ∧ (singleBitBimodalPredictor fuel traces).emitted.length = 7
      ∧ (singleBitBimodalPredictor fuel traces).emitted.map Except.ok
          = sweepSizes.map (fun size => singleBitPass size traces)
      ∧ (twoBitBimodalPredictor fuel traces).status = Status.completed
      ∧ (twoBitBimodalPredictor fuel traces).emitted.length = 7
      ∧ (twoBitBimodalPredictor fuel traces).emitted.map Except.ok
          = sweepSizes.map (fun size => twoBitPass size traces)
      ∧ (gsharePredictor fuel traces).status = Status.completed
      ∧ (gsharePredictor fuel traces).emitted.length = 9
      ∧ (gsharePredictor fuel traces).emitted.map Except.ok
          = sweepMasks.map (fun mask => gsharePass mask traces) := by
  have hsingle := sizeSweep_completes (fun size => singleBitPass size traces)
    (fun S hS => singleBitPass_ok S (sweepSizes_bounds hS).1 (sweepSizes_bounds hS).2
      traces recs h) fuel (by omega)
  have htwo := sizeSweep_completes (fun size => twoBitPass size traces)
    (fun S hS => ⟨_, twoBitPass_eq_spec S (sweepSizes_bounds hS).1 (sweepSizes_bounds hS).2
      traces recs h⟩) fuel (by omega)
  have hg := gshareSweep_completes traces recs h fuel hfuel
  have hlen : ∀ (xs : List (Nat × Nat)) (ys : List (Except Failure (Nat × Nat))),
      xs.map Except.ok = ys → xs.length = ys.length := by
    intro xs ys hxy
    rw [← hxy, List.length_map]
  refine ⟨rfl, by decide, hsingle.1, ?_, hsingle.2, htwo.1, ?_, htwo.2, hg.1, ?_, hg.2⟩
  · exact (hlen _ _ hsingle.2).trans (by simp [sweepSizes])
  · exact (hlen _ _ htwo.2).trans (by simp [sweepSizes])
  · exact (hlen _ _ hg.2).trans (by simp [sweepMasks])

theorem sweeps_emit_in_order_witness :
    sweepSizes = [16, 32, 128, 256, 512, 1024, 2048]
      ∧ sweepMasks = [7, 15, 31, 63, 127, 255, 511, 1023, 2047]
      ∧ (singleBitBimodalPredictor 10 selectorTrace).status = Status.completed
      ∧ (singleBitBimodalPredictor 10 selectorTrace).emitted.length = 7
      ∧ (singleBitBimodalPredictor 10 selectorTrace).emitted.map Except.ok
          = sweepSizes.map (fun size => singleBitPass size selectorTrace)
      ∧ (twoBitBimodalPredictor 10 selectorTrace).status = Status.completed
      ∧ (twoBitBimodalPredictor 10 selectorTrace).emitted.length = 7
      ∧ (twoBitBimodalPredictor 10 selectorTrace).emitted.map Except.ok
          = sweepSizes.map (fun size => twoBitPass size selectorTrace)
      ∧ (gsharePredictor 10 selectorTrace).status = Status.completed
      ∧ (gsharePredictor 10 selectorTrace).emitted.length = 9
      ∧ (gsharePredictor 10 selectorTrace).emitted.map Except.ok
          = sweepMasks.map (fun mask => gsharePass mask selectorTrace) :=
  sweeps_emit_in_order selectorTrace selectorRecords selectorTrace_reads 10 (by decide)

/-! ### The empty trace -/

/-- C10. For the empty trace (and enough fuel for the loop model) every predictor returns
and every result it writes is `(0, 0)`: one from `alwaysTakenPredictor`, one from
`neverTakenPredictor`, one for each of the 7 sizes of both bimodal predictors, one for each
of the 9 masks of `gsharePredictor`, one from `tournamentPredictor`; so `main` returns
after writing 26 pairs `(0, 0)`. -/
theorem empty_trace_reports_zero (fuel : Nat) (hfuel : 10 ≤ fuel) :
    alwaysTakenPredictor [] = ⟨[(0, 0)], Status.completed⟩
      ∧ neverTakenPredictor [] = ⟨[(0, 0)], Status.completed⟩
      ∧ singleBitBimodalPredictor fuel [] = ⟨List.replicate 7 (0, 0), Status.completed⟩
      ∧ twoBitBimodalPredictor fuel [] = ⟨List.replicate 7 (0, 0), Status.completed⟩
      ∧ gsharePredictor fuel [] = ⟨List.replicate 9 (0, 0), Status.completed⟩
      ∧ tournamentPredictor [] = ⟨[(0, 0)], Status.completed⟩
      ∧ main fuel [] = ⟨List.replicate 26 (0, 0), Status.completed⟩ := by
  obtain ⟨k, rfl⟩ : ∃ k, fuel = k + 10 := ⟨fuel - 10, by omega⟩
  have hsingle : singleBitBimodalPredictor (k + 10) []
      = ⟨List.replicate 7 (0, 0), Status.completed⟩ := rfl
  have htwo : twoBitBimodalPredictor (k + 10) []
      = ⟨List.replicate 7 (0, 0), Status.completed⟩ := rfl
  have hgshare : gsharePredictor (k + 10) []
      = ⟨List.replicate 9 (0, 0), Status.completed⟩ := rfl
  refine ⟨rfl, rfl, hsingle, htwo, hgshare, rfl, ?_⟩
  simp only [main, hsingle, htwo, hgshare]
  rfl

theorem empty_trace_reports_zero_witness :
    alwaysTakenPredictor [] = ⟨[(0, 0)], Status.completed⟩
      ∧ neverTakenPredictor [] = ⟨[(0, 0)], Status.completed⟩
      ∧ singleBitBimodalPredictor 10 [] = ⟨List.replicate 7 (0, 0), Status.completed⟩
      ∧ twoBitBimodalPredictor 10 [] = ⟨List.replicate 7 (0, 0), Status.completed⟩
      ∧ gsharePredictor 10 [] = ⟨List.replicate 9 (0, 0), Status.completed⟩
      ∧ tournamentPredictor [] = ⟨[(0, 0)], Status.completed⟩
      ∧ main 10 [] = ⟨List.replicate 26 (0, 0), Status.completed⟩ :=
  empty_trace_reports_zero 10 (by decide)

/-! ### Malformed lines -/

theorem le_length_of_charAt {t : Line} {pos : Nat} {c : Char}
    (h : charAt t pos = Except.ok c) : pos ≤ t.length := by
  by_contra hgt
  have hnone : (t)[pos]? = none := List.getElem?_eq_none (by omega)
  have hne : pos ≠ t.length := by omega
  simp [charAt, hnone, hne] at h

theorem outcome_le_of_reads {traces : List Line} {recs : List TraceRecord}
    (h : TraceReadsAs traces recs) : ∀ t ∈ traces, OUTCOME_INDEX ≤ t.length := by
  induction traces generalizing recs with
  | nil => intro t ht; cases ht
  | cons u us ih =>
    obtain ⟨r, rs, rfl, hhead, htail⟩ := traceReadsAs_cons_inv h
    intro t ht
    rcases List.mem_cons.mp ht with rfl | hmem
    · exact le_length_of_charAt hhead.2
    · exact ih htail t hmem

theorem singleBitLoop_stops (S : Nat) (hpos : 0 < S) (hle : S ≤ 2 ^ 64)
    (pre post : List Line) (bad : Line) (recs : List TraceRecord) (e : Failure)
    (hpre : TraceReadsAs pre recs) (hbad : readAddress bad = Except.error e)
    (table : Table SingleBitHistory) (correct : Nat) :
    singleBitLoop S (pre ++ bad :: post) table correct = Except.error e := by
  induction pre generalizing recs table correct with
  | nil => simp [singleBitLoop, singleBitBody, hbad]
  | cons t ts ih =>
    obtain ⟨r, rs, rfl, hhead, htail⟩ := traceReadsAs_cons_inv hpre
    obtain ⟨next, hnext⟩ := singleBitBody_ok S hpos hle table correct t r hhead
    simp only [List.cons_append, singleBitLoop, hnext]
    exact ih rs htail _ _

/-- C9, as stated, fails.  The address field of the line `0x1Zjunk!! T` is not a
hexadecimal number, yet `std::stoul` accepts its leading `0x1` as the address 1 and the
program returns normally with 26 results computed from that address.  The line
`0x00000010 ` has 11 characters, so none at the outcome offset 11, yet the program returns
normally with 26 results computed from the terminating null character as the outcome. -/
theorem malformed_line_counterexample :
    validAddressField "0x1Zjunk!! T".toList = false
      ∧ readAddress "0x1Zjunk!! T".toList = Except.ok 1
      ∧ main 10 ["0x1Zjunk!! T".toList]
          = ⟨(1, 1) :: (0, 1) :: List.replicate 24 (1, 1), Status.completed⟩
      ∧ "0x00000010 ".toList.length = 11
      ∧ charAt "0x00000010 ".toList OUTCOME_INDEX = Except.ok (Char.ofNat 0)
      ∧ main 10 ["0x00000010 ".toList] = ⟨List.replicate 26 (0, 1), Status.completed⟩ := by
  decide

/-- C9, amended.  The program validates nothing when it loads the trace.  For a trace
with a line `bad` from whose first 10 characters `std::stoul` converts nothing (no
hexadecimal digit after optional white space, sign and `0x`; it throws), the lines before
it reading as records and `bad` and the lines after it having at least 11 characters, the
program stops with the uncaught exception in the first pass of
`singleBitBimodalPredictor`, after `alwaysTakenPredictor` and `neverTakenPredictor` have
written their results, which count all lines, `bad` included; no line is skipped. -/
theorem malformed_line_stops_program (pre post : List Line) (bad : Line)
    (recs : List TraceRecord) (e : Failure) (hpre : TraceReadsAs pre recs)
    (hbad : readAddress bad = Except.error e)
    (hlen : ∀ t ∈ bad :: post, OUTCOME_INDEX ≤ t.length) (fuel : Nat) (hfuel : 1 ≤ fuel) :
    main fuel (pre ++ bad :: post)
      = ⟨[((pre ++ bad :: post).countP (fun t => outcomeOf t = TAKEN_CHAR),
            (pre ++ bad :: post).length),
          ((pre ++ bad :: post).countP (fun t => outcomeOf t = NOT_TAKEN_CHAR),
            (pre ++ bad :: post).length)],
        Status.failed e⟩ := by
  obtain ⟨k, rfl⟩ : ∃ k, fuel = k + 1 := ⟨fuel - 1, by omega⟩
  have hall : ∀ t ∈ pre ++ bad :: post, OUTCOME_INDEX ≤ t.length := by
    intro t ht
    rcases List.mem_append.mp ht with hmem | hmem
    · exact outcome_le_of_reads hpre t hmem
    · exact hlen t hmem
  have halways : alwaysTakenPredictor (pre ++ bad :: post)
      = ⟨[((pre ++ bad :: post).countP (fun t => outcomeOf t = TAKEN_CHAR),
            (pre ++ bad :: post).length)], Status.completed⟩ := by
    simp only [alwaysTakenPredictor, alwaysTakenLoop_eq _ hall 0, Nat.zero_add]
  have hnever : neverTakenPredictor (pre ++ bad :: post)
      = ⟨[((pre ++ bad :: post).countP (fun t => outcomeOf t = NOT_TAKEN_CHAR),
            (pre ++ bad :: post).length)], Status.completed⟩ := by
    simp only [neverTakenPredictor, neverTakenLoop_eq _ hall 0, Nat.zero_add]
  have hsingle : singleBitBimodalPredictor (k + 1) (pre ++ bad :: post)
      = ⟨[], Status.failed e⟩ := by
    simp only [singleBitBimodalPredictor, sizeSweep, singleBitPass,
      singleBitLoop_stops 16 (by decide) (by decide) pre post bad recs e hpre hbad]
    rfl
  simp only [main, halways, hnever, hsingle, Run.andThen]
  rfl

theorem malformed_line_stops_program_witness :
    main 10 (["0x00000010 T".toList] ++ "zzzzzzzzzz T".toList :: ["0x00000020 N".toList])
      = ⟨[((["0x00000010 T".toList] ++ "zzzzzzzzzz T".toList
                :: ["0x00000020 N".toList]).countP (fun t => outcomeOf t = TAKEN_CHAR),
            (["0x00000010 T".toList] ++ "zzzzzzzzzz T".toList
                :: ["0x00000020 N".toList]).length),
          ((["0x00000010 T".toList] ++ "zzzzzzzzzz T".toList
                :: ["0x00000020 N".toList]).countP (fun t => outcomeOf t = NOT_TAKEN_CHAR),
            (["0x00000010 T".toList] ++ "zzzzzzzzzz T".toList
                :: ["0x00000020 N".toList]).length)],
        Status.failed Failure.invalidArgument⟩ :=
  malformed_line_stops_program ["0x00000010 T".toList] ["0x00000020 N".toList]
    "zzzzzzzzzz T".toList [⟨16, 'T'⟩] Failure.invalidArgument
    (List.Forall₂.cons ⟨by decide, by decide⟩ List.Forall₂.nil) (by decide) (by decide)
    10 (by decide)

/-! ### The saturating counters -/

/-- C11. Every saturating-counter transition of the program keeps the value in the range
0..3 and changes it by at most one step, never wrapping: the `switch` of
`twoBitBimodalPredictor` and `gsharePredictor`, the lambda `updateSaturating` of
`tournamentPredictor` (whose cast is always defined) and the selector update of
`tournamentPredictor` (whose cast is always defined) each map a value to a value in 0..3
that differs from it by 0 or 1; a step up from 3 stays at 3 and a step down from 0 stays
at 0. -/
theorem counter_transitions_saturate (entry : TwoBitSaturatingHistory)
    (sel : PredictorSelector) (isTaken gCorrect bCorrect : Bool) :
    (0 ≤ (twoBitSwitch entry isTaken).2.toInt ∧ (twoBitSwitch entry isTaken).2.toInt ≤ 3
        ∧ ((twoBitSwitch entry isTaken).2.toInt - entry.toInt).natAbs ≤ 1
        ∧ (twoBitSwitch StronglyNotTaken false).2 = StronglyNotTaken
        ∧ (twoBitSwitch StronglyTaken true).2 = StronglyTaken)
      ∧ (∃ next, updateSaturating isTaken entry = Except.ok next
          ∧ 0 ≤ next.toInt ∧ next.toInt ≤ 3 ∧ (next.toInt - entry.toInt).natAbs ≤ 1
          ∧ updateSaturating false StronglyNotTaken = Except.ok StronglyNotTaken
          ∧ updateSaturating true StronglyTaken = Except.ok StronglyTaken)
      ∧ (∃ next, updateSelector gCorrect bCorrect sel = Except.ok next
          ∧ 0 ≤ next.toInt ∧ next.toInt ≤ 3 ∧ (next.toInt - sel.toInt).natAbs ≤ 1
          ∧ updateSelector false true StronglyBimodal = Except.ok StronglyBimodal
          ∧ updateSelector true false StronglyGShare = Except.ok StronglyGShare) := by
  refine ⟨?_, ⟨(twoBitSwitch entry isTaken).2, updateSaturating_eq isTaken entry, ?_⟩,
    ⟨specSelectorStep gCorrect bCorrect sel, updateSelector_eq gCorrect bCorrect sel, ?_⟩⟩
  · cases entry <;> cases isTaken <;> decide
  · cases entry <;> cases isTaken <;> decide
  · cases sel <;> cases gCorrect <;> cases bCorrect <;> decide

theorem feedSwitch_taken (n : Nat) : feedSwitch true n StronglyTaken = StronglyTaken := by
  induction n with
  | zero => rfl
  | succ n ih => exact ih

theorem feedSwitch_notTaken_saturated (n : Nat) :
    feedSwitch false n StronglyNotTaken = StronglyNotTaken := by
  induction n with
  | zero => rfl
  | succ n ih => exact ih

theorem feedLambda_eq_feedSwitch (isTaken : Bool) (n : Nat) (entry : TwoBitSaturatingHistory) :
    feedLambda isTaken n entry = Except.ok (feedSwitch isTaken n entry) := by
  induction n generalizing entry with
  | zero => rfl
  | succ n ih => simp only [feedLambda, feedSwitch, updateSaturating_eq, ih]

theorem feedSwitch_notTaken (n : Nat) :
    (feedSwitch false n StronglyTaken).toInt = min (n : Int) 3 := by
  match n with
  | 0 => decide
  | 1 => decide
  | 2 => decide
  | k + 3 =>
    have h : feedSwitch false (k + 3) StronglyTaken = feedSwitch false k StronglyNotTaken := rfl
    rw [h, feedSwitch_notTaken_saturated]
    simp only [TwoBitSaturatingHistory.toInt]
    omega

/-- C12. For every `n`, a two-bit cell that starts at `StronglyTaken` and receives `n`
consecutive taken outcomes is at `StronglyTaken`, and one that receives `n` consecutive
not-taken outcomes is at the state of value `min n 3` (at most `StronglyNotTaken`, never
beyond); this holds for the `switch` of `twoBitBimodalPredictor` and `gsharePredictor` and
for the lambda `updateSaturating` of `tournamentPredictor`, which never fails. -/
theorem counter_after_repeated_outcomes (n : Nat) :
    feedSwitch true n StronglyTaken = StronglyTaken
      ∧ (feedSwitch false n StronglyTaken).toInt = min (n : Int) 3
      ∧ feedLambda true n StronglyTaken = Except.ok StronglyTaken
      ∧ (∃ cell, feedLambda false n StronglyTaken = Except.ok cell
          ∧ cell.toInt = min (n : Int) 3) := by
  refine ⟨feedSwitch_taken n, feedSwitch_notTaken n, ?_, ?_⟩
  · rw [feedLambda_eq_feedSwitch, feedSwitch_taken]
  · exact ⟨_, feedLambda_eq_feedSwitch false n StronglyTaken, feedSwitch_notTaken n⟩

/-! ### The history register -/

theorem tntTrace_reads : TraceReadsAs tntTrace tntRecords :=
  List.Forall₂.cons ⟨by decide, by decide⟩
    (List.Forall₂.cons ⟨by decide, by decide⟩
      (List.Forall₂.cons ⟨by decide, by decide⟩ List.Forall₂.nil))

theorem shift_or_eq (h : Nat) (b : Bool) : (h <<< 1) ||| b.toNat = 2 * h + b.toNat := by
  have hb : b.toNat < 2 ^ 1 := by cases b <;> decide
  have hor := Nat.mul_add_lt_is_or hb h
  rw [Nat.shiftLeft_eq, Nat.mul_comm h (2 ^ 1), ← hor]

theorem shiftHistory_eq (h : Nat) (b : Bool) : shiftHistory h b = (2 * h + b.toNat) % 2 ^ 11 := by
  unfold shiftHistory
  rw [shift_or_eq]

theorem foldl_step_mod (os : List Bool) (h g : Nat) (hmod : h % 2 ^ 11 = g % 2 ^ 11) :
    (os.foldl shiftHistory h) % 2 ^ 11
      = (os.foldl (fun acc b => 2 * acc + b.toNat) g) % 2 ^ 11 := by
  induction os generalizing h g with
  | nil => exact hmod
  | cons b bs ih =>
    simp only [List.foldl_cons]
    apply ih
    rw [shiftHistory_eq]
    omega

theorem foldl_shiftHistory_lt (os : List Bool) (h : Nat) (hlt : h < 2 ^ 11) :
    os.foldl shiftHistory h < 2 ^ 11 := by
  induction os generalizing h with
  | nil => exact hlt
  | cons b bs ih =>
    simp only [List.foldl_cons]
    apply ih
    rw [shiftHistory_eq]
    exact Nat.mod_lt _ (by decide)

theorem foldl_shiftHistory_eq_mod (os : List Bool) :
    os.foldl shiftHistory 0 = bitsValue os % 2 ^ 11 := by
  have h1 := foldl_step_mod os 0 0 rfl
  have h2 := foldl_shiftHistory_lt os 0 (by decide)
  rw [Nat.mod_eq_of_lt h2] at h1
  exact h1

theorem foldl_bits_acc (os : List Bool) (acc : Nat) :
    os.foldl (fun a b => 2 * a + b.toNat) acc = acc * 2 ^ os.length + bitsValue os := by
  induction os generalizing acc with
  | nil => simp [bitsValue]
  | cons b bs ih =>
    simp only [List.foldl_cons, bitsValue, List.length_cons]
    rw [ih, ih (2 * 0 + b.toNat)]
    ring

theorem bitsValue_append (xs ys : List Bool) :
    bitsValue (xs ++ ys) = bitsValue xs * 2 ^ ys.length + bitsValue ys := by
  unfold bitsValue
  rw [List.foldl_append, foldl_bits_acc]
  rfl

theorem bitsValue_lt (os : List Bool) : bitsValue os < 2 ^ os.length := by
  induction os using List.reverseRecOn with
  | nil => simp [bitsValue]
  | append_singleton xs b ih =>
    rw [bitsValue_append, List.length_append]
    have hb : bitsValue [b] < 2 := by cases b <;> decide
    simp only [List.length_singleton, pow_succ, pow_zero, one_mul]
    omega

theorem bitsValue_lastOutcomes (w : Nat) (os : List Bool) :
    bitsValue (lastOutcomes w os) = bitsValue os % 2 ^ w := by
  unfold lastOutcomes
  have hsplit : bitsValue os
      = bitsValue (os.take (os.length - w)) * 2 ^ (os.drop (os.length - w)).length
        + bitsValue (os.drop (os.length - w)) := by
    rw [← bitsValue_append, List.take_append_drop]
  have hlt := bitsValue_lt (os.drop (os.length - w))
  rcases Nat.lt_or_ge os.length w with hshort | hlong
  · have hzero : os.length - w = 0 := by omega
    rw [hzero, List.drop_zero]
    have hpow : 2 ^ os.length ≤ 2 ^ w := Nat.pow_le_pow_right (by decide) (by omega)
    have hlt' := bitsValue_lt os
    exact (Nat.mod_eq_of_lt (by omega)).symm
  · have hlen : (os.drop (os.length - w)).length = w := by
      rw [List.length_drop]
      omega
    rw [hlen] at hsplit hlt
    rw [hsplit, Nat.add_comm, Nat.add_mul_mod_self_right, Nat.mod_eq_of_lt hlt]

theorem gshareLoop_ghr (mask : Nat) (traces : List Line) (recs : List TraceRecord)
    (h : TraceReadsAs traces recs) (st : GShareState) :
    ∃ final, gshareLoop mask traces st = Except.ok final
      ∧ final.ghr = (recs.map TraceRecord.taken).foldl shiftHistory st.ghr := by
  induction traces generalizing recs st with
  | nil =>
    rw [traceReadsAs_nil_inv h]
    exact ⟨st, rfl, rfl⟩
  | cons t ts ih =>
    obtain ⟨r, rs, rfl, hhead, htail⟩ := traceReadsAs_cons_inv h
    obtain ⟨next, hnext, hspec⟩ := gshareBody_eq_spec mask st t r hhead
    obtain ⟨final, hfinal, hghr⟩ := ih rs htail next
    refine ⟨final, ?_, ?_⟩
    · simp only [gshareLoop, hnext, hfinal]
    · have hn : next.ghr = shiftHistory st.ghr r.taken := by
        have := congrArg (fun p => p.2.1) hspec
        simpa [specGShareStep, shiftHistory] using this
      rw [hghr, hn]
      rfl

/-- C13. For every sequence of outcomes `os` fed to the history register from zero and
every mask width `w` up to 11 (so for the widths 3 to 11 of the sweep), the value
`history AND (2^w - 1)` used for indexing is the number whose binary digits are the last
`w` outcomes (most recent outcome in bit 0, taken = 1, missing older outcomes = 0); the
register without its truncation to 11 bits gives the same value; and the register of
`gsharePredictor` after a trace with these outcomes holds this history. -/
theorem history_masked_value (os : List Bool) (w : Nat) (hw : w ≤ 11) :
    (os.foldl shiftHistory 0) &&& (2 ^ w - 1) = bitsValue (lastOutcomes w os)
      ∧ (os.foldl (fun h b => (h <<< 1) ||| b.toNat) 0) &&& (2 ^ w - 1)
          = bitsValue (lastOutcomes w os)
      ∧ (∀ traces recs, TraceReadsAs traces recs → recs.map TraceRecord.taken = os →
          ∃ final, gshareLoop (2 ^ w - 1) traces ⟨Table.fill StronglyTaken, 0, 0⟩
              = Except.ok final
            ∧ final.ghr = os.foldl shiftHistory 0) := by
  have hdvd : 2 ^ w ∣ 2 ^ 11 := Nat.pow_dvd_pow 2 hw
  refine ⟨?_, ?_, ?_⟩
  · rw [Nat.and_pow_two_sub_one_eq_mod, foldl_shiftHistory_eq_mod,
      Nat.mod_mod_of_dvd _ hdvd, bitsValue_lastOutcomes]
  · have hfun : (fun (h : Nat) (b : Bool) => (h <<< 1) ||| b.toNat)
        = (fun acc b => 2 * acc + b.toNat) := by
      funext h b
      exact shift_or_eq h b
    rw [Nat.and_pow_two_sub_one_eq_mod, hfun, bitsValue_lastOutcomes]
    rfl
  · intro traces recs hreads hos
    obtain ⟨final, hfinal, hghr⟩ :=
      gshareLoop_ghr (2 ^ w - 1) traces recs hreads ⟨Table.fill StronglyTaken, 0, 0⟩
    exact ⟨final, hfinal, by rw [hghr, hos]⟩

theorem history_masked_value_witness :
    ([true, false, true].foldl shiftHistory 0) &&& (2 ^ 3 - 1) = 5
      ∧ ∃ final, gshareLoop (2 ^ 3 - 1) tntTrace ⟨Table.fill StronglyTaken, 0, 0⟩
            = Except.ok final
          ∧ final.ghr &&& (2 ^ 3 - 1) = 5 := by
  have h := history_masked_value [true, false, true] 3 (by decide)
  obtain ⟨final, hfinal, hghr⟩ := h.2.2 tntTrace tntRecords tntTrace_reads (by decide)
  refine ⟨h.1.trans (by decide), final, hfinal, ?_⟩
  rw [hghr]
  decide

/-! ### Table indices -/

/-- C17, the code at a failing input.  The address field of the line `-1         T` is
accepted by `std::stoul` (a minus sign negates the value in `unsigned long`), and
`long address` is then -1.  The remainder `address % size` is -1, which as a `size_t` is
`2^64 - 1`: the index is not a position of the table in any predictor that computes one,
and the program, after the two baseline results, runs into the out-of-range access. -/
theorem negative_address_index_out_of_range :
    readAddress "-1         T".toList = Except.ok (-1)
      ∧ toSizeT (Int.tmod (-1) 16) = 2 ^ 64 - 1
      ∧ ¬ toSizeT (Int.tmod (-1) 16) < 16
      ∧ ¬ toSizeT (Int.tmod (Int.xor (-1) 0) 2048) < 2048
      ∧ singleBitPass 16 ["-1         T".toList] = Except.error Failure.undefinedBehaviour
      ∧ twoBitPass 16 ["-1         T".toList] = Except.error Failure.undefinedBehaviour
      ∧ gsharePass 7 ["-1         T".toList] = Except.error Failure.undefinedBehaviour
      ∧ tournamentPredictor ["-1         T".toList]
          = ⟨[], Status.failed Failure.undefinedBehaviour⟩
      ∧ main 10 ["-1         T".toList]
          = ⟨[(1, 1), (0, 1)], Status.failed Failure.undefinedBehaviour⟩ := by
  decide

/-! ### Every reported pair is bounded by the number of lines -/

theorem alwaysTakenLoop_le (traces : List Line) (correct final : Nat)
    (h : alwaysTakenLoop traces correct = Except.ok final) :
    final ≤ correct + traces.length := by
  induction traces generalizing correct with
  | nil =>
    simp only [alwaysTakenLoop] at h
    injection h with h
    subst h
    simp
  | cons t ts ih =>
    cases hC : charAt t OUTCOME_INDEX with
    | error e => simp [alwaysTakenLoop, hC] at h
    | ok c =>
      simp only [alwaysTakenLoop, hC] at h
      have := ih _ h
      simp only [List.length_cons]
      split at this <;> omega

theorem neverTakenLoop_le (traces : List Line) (correct final : Nat)
    (h : neverTakenLoop traces correct = Except.ok final) :
    final ≤ correct + traces.length := by
  induction traces generalizing correct with
  | nil =>
    simp only [neverTakenLoop] at h
    injection h with h
    subst h
    simp
  | cons t ts ih =>
    cases hC : charAt t OUTCOME_INDEX with
    | error e => simp [neverTakenLoop, hC] at h
    | ok c =>
      simp only [neverTakenLoop, hC] at h
      have := ih _ h
      simp only [List.length_cons]
      split at this <;> omega

theorem singleBitBody_le (S : Nat) (table : Table SingleBitHistory) (correct : Nat) (t : Line)
    (next : Table SingleBitHistory × Nat)
    (h : singleBitBody S table correct t = Except.ok next) : next.2 ≤ correct + 1 := by
  cases hA : readAddress t with
  | error e => simp [singleBitBody, hA] at h
  | ok address =>
    by_cases hidx : toSizeT (Int.tmod address (S : Int)) < S
    · cases hC : charAt t OUTCOME_INDEX with
      | error e => simp [singleBitBody, hA, hC, hidx] at h
      | ok c =>
        simp only [singleBitBody, hA, hC, hidx, if_true] at h
        split at h
        · injection h with h
          subst h
          exact Nat.le_refl _
        · split at h
          · injection h with h
            subst h
            exact Nat.le_refl _
          · injection h with h
            subst h
            exact Nat.le_succ _
    · simp [singleBitBody, hA, hidx] at h

theorem singleBitLoop_le (S : Nat) (traces : List Line) (table : Table SingleBitHistory)
    (correct : Nat) (final : Table SingleBitHistory × Nat)
    (h : singleBitLoop S traces table correct = Except.ok final) :
    final.2 ≤ correct + traces.length := by
  induction traces generalizing table correct with
  | nil =>
    simp only [singleBitLoop] at h
    injection h with h
    subst h
    simp
  | cons t ts ih =>
    cases hB : singleBitBody S table correct t with
    | error e => simp [singleBitLoop, hB] at h
    | ok next =>
      simp only [singleBitLoop, hB] at h
      have h1 := singleBitBody_le S table correct t next hB
      have h2 := ih _ _ h
      simp only [List.length_cons]
      omega

theorem twoBitSwitch_le (entry : TwoBitSaturatingHistory) (isTaken : Bool) :
    (twoBitSwitch entry isTaken).1 ≤ 1 := by
  cases entry <;> cases isTaken <;> decide

theorem twoBitBody_le (S : Nat) (table : Table TwoBitSaturatingHistory) (correct : Nat)
    (t : Line) (next : Table TwoBitSaturatingHistory × Nat)
    (h : twoBitBody S table correct t = Except.ok next) : next.2 ≤ correct + 1 := by
  cases hA : readAddress t with
  | error e => simp [twoBitBody, hA] at h
  | ok address =>
    by_cases hidx : toSizeT (Int.tmod address (S : Int)) < S
    · cases hC : charAt t OUTCOME_INDEX with
      | error e => simp [twoBitBody, hA, hC, hidx] at h
      | ok c =>
        simp only [twoBitBody, hA, hC, hidx, if_true] at h
        injection h with h
        subst h
        exact Nat.add_le_add_left (twoBitSwitch_le _ _) correct
    · simp [twoBitBody, hA, hidx] at h

theorem twoBitLoop_le (S : Nat) (traces : List Line) (table : Table TwoBitSaturatingHistory)
    (correct : Nat) (final : Table TwoBitSaturatingHistory × Nat)
    (h : twoBitLoop S traces table correct = Except.ok final) :
    final.2 ≤ correct + traces.length := by
  induction traces generalizing table correct with
  | nil =>
    simp only [twoBitLoop] at h
    injection h with h
    subst h
    simp
  | cons t ts ih =>
    cases hB : twoBitBody S table correct t with
    | error e => simp [twoBitLoop, hB] at h
    | ok next =>
      simp only [twoBitLoop, hB] at h
      have h1 := twoBitBody_le S table correct t next hB
      have h2 := ih _ _ h
      simp only [List.length_cons]
      omega

theorem gshareBody_le (mask : Nat) (st next : GShareState) (t : Line)
    (h : gshareBody mask st t = Except.ok next) : next.correct ≤ st.correct + 1 := by
  cases hA : readAddress t with
  | error e => simp [gshareBody, hA] at h
  | ok address =>
    by_cases hidx : toSizeT (Int.tmod (Int.xor address ((st.ghr &&& mask : Nat) : Int)) 2048) < 2048
    · cases hC : charAt t OUTCOME_INDEX with
      | error e => simp [gshareBody, hA, hC, hidx] at h
      | ok c =>
        simp only [gshareBody, hA, hC, hidx, if_true] at h
        injection h with h
        subst h
        exact Nat.add_le_add_left (twoBitSwitch_le _ _) st.correct
    · simp [gshareBody, hA, hidx] at h

theorem gshareLoop_le (mask : Nat) (traces : List Line) (st final : GShareState)
    (h : gshareLoop mask traces st = Except.ok final) :
    final.correct ≤ st.correct + traces.length := by
  induction traces generalizing st with
  | nil =>
    simp only [gshareLoop] at h
    injection h with h
    subst h
    simp
  | cons t ts ih =>
    cases hB : gshareBody mask st t with
    | error e => simp [gshareLoop, hB] at h
    | ok next =>
      simp only [gshareLoop, hB] at h
      have h1 := gshareBody_le mask st next t hB
      have h2 := ih _ h
      simp only [List.length_cons]
      omega

theorem tournamentBody_le (st next : TournamentState) (t : Line)
    (h : tournamentBody st t = Except.ok next) : next.correct ≤ st.correct + 1 := by
  cases hA : readAddress t with
  | error e => simp [tournamentBody, hA] at h
  | ok address =>
    cases hC : charAt t OUTCOME_INDEX with
    | error e => simp [tournamentBody, hA, hC] at h
    | ok c =>
      by_cases hidx : toSizeT (Int.tmod (Int.xor address (st.ghr : Int)) 2048) < 2048
          ∧ toSizeT (Int.tmod address 2048) < 2048
      · simp only [tournamentBody, hA, hC, hidx, if_true, updateSaturating_eq,
          updateSelector_eq] at h
        injection h with h
        subst h
        simp only
        split <;> omega
      · simp [tournamentBody, hA, hC, hidx] at h

theorem tournamentLoop_le (traces : List Line) (st final : TournamentState)
    (h : tournamentLoop traces st = Except.ok final) :
    final.correct ≤ st.correct + traces.length := by
  induction traces generalizing st with
  | nil =>
    simp only [tournamentLoop] at h
    injection h with h
    subst h
    simp
  | cons t ts ih =>
    cases hB : tournamentBody st t with
    | error e => simp [tournamentLoop, hB] at h
    | ok next =>
      simp only [tournamentLoop, hB] at h
      have h1 := tournamentBody_le st next t hB
      have h2 := ih _ h
      simp only [List.length_cons]
      omega

theorem sizeSweep_emitted (pass : Nat → Except Failure (Nat × Nat)) (P : Nat × Nat → Prop)
    (hpass : ∀ S r, pass S = Except.ok r → P r) (fuel size : Nat) (p : Nat × Nat)
    (hp : p ∈ (sizeSweep pass fuel size).emitted) : P p := by
  induction fuel generalizing size with
  | zero => simp [sizeSweep] at hp
  | succ fuel ih =>
    by_cases hsize : size ≤ 2048
    · cases hr : pass size with
      | error e => simp [sizeSweep, hsize, hr] at hp
      | ok r =>
        simp only [sizeSweep, hsize, if_true, hr, List.mem_cons] at hp
        rcases hp with rfl | hmem
        · exact hpass size p hr
        · exact ih _ hmem
    · simp [sizeSweep, hsize] at hp

theorem gshareSweep_emitted (traces : List Line) (fuel mask : Nat)
    (table : Table TwoBitSaturatingHistory) (p : Nat × Nat)
    (hp : p ∈ (gshareSweep traces fuel mask table).emitted) :
    p.1 ≤ p.2 ∧ p.2 = traces.length := by
  induction fuel generalizing mask table with
  | zero => simp [gshareSweep] at hp
  | succ fuel ih =>
    by_cases hmask : mask ≤ 2047
    · cases hr : gshareLoop mask traces ⟨table.refill 2048 StronglyTaken, 0, 0⟩ with
      | error e => simp [gshareSweep, hmask, hr] at hp
      | ok final =>
        simp only [gshareSweep, hmask, if_true, hr, List.mem_cons] at hp
        rcases hp with rfl | hmem
        · have := gshareLoop_le mask traces _ final hr
          exact ⟨by simpa using this, rfl⟩
        · exact ih _ _ hmem
    · simp [gshareSweep, hmask] at hp

theorem singleBitPass_bounded (traces : List Line) (S : Nat) (r : Nat × Nat)
    (h : singleBitPass S traces = Except.ok r) : r.1 ≤ r.2 ∧ r.2 = traces.length := by
  cases hl : singleBitLoop S traces (Table.fill Taken) 0 with
  | error e => simp [singleBitPass, hl] at h
  | ok final =>
    simp only [singleBitPass, hl] at h
    injection h with h
    subst h
    have := singleBitLoop_le S traces _ 0 final hl
    exact ⟨by simpa using this, rfl⟩

theorem twoBitPass_bounded (traces : List Line) (S : Nat) (r : Nat × Nat)
    (h : twoBitPass S traces = Except.ok r) : r.1 ≤ r.2 ∧ r.2 = traces.length := by
  cases hl : twoBitLoop S traces (Table.fill StronglyTaken) 0 with
  | error e => simp [twoBitPass, hl] at h
  | ok final =>
    simp only [twoBitPass, hl] at h
    injection h with h
    subst h
    have := twoBitLoop_le S traces _ 0 final hl
    exact ⟨by simpa using this, rfl⟩

/-- C18. For every trace (any lines at all), every predictor and every configuration of
a sweep, each pair `(correct, total)` the predictor writes satisfies
`0 ≤ correct ≤ total`, and `total` is the number of lines of the trace; `correct` is a
natural number in this development, each line adding at most 1 to it. -/
theorem reported_pairs_bounded (traces : List Line) (fuel : Nat) (p : Nat × Nat)
    (hp : p ∈ (alwaysTakenPredictor traces).emitted
      ∨ p ∈ (neverTakenPredictor traces).emitted
      ∨ p ∈ (singleBitBimodalPredictor fuel traces).emitted
      ∨ p ∈ (twoBitBimodalPredictor fuel traces).emitted
      ∨ p ∈ (gsharePredictor fuel traces).emitted
      ∨ p ∈ (tournamentPredictor traces).emitted) :
    0 ≤ p.1 ∧ p.1 ≤ p.2 ∧ p.2 = traces.length := by
  refine ⟨Nat.zero_le _, ?_⟩
  rcases hp with hp | hp | hp | hp | hp | hp
  · cases hl : alwaysTakenLoop traces 0 with
    | error e => simp [alwaysTakenPredictor, hl] at hp
    | ok final =>
      simp only [alwaysTakenPredictor, hl, List.mem_singleton] at hp
      subst hp
      have := alwaysTakenLoop_le traces 0 final hl
      exact ⟨by simpa using this, rfl⟩
  · cases hl : neverTakenLoop traces 0 with
    | error e => simp [neverTakenPredictor, hl] at hp
    | ok final =>
      simp only [neverTakenPredictor, hl, List.mem_singleton] at hp
      subst hp
      have := neverTakenLoop_le traces 0 final hl
      exact ⟨by simpa using this, rfl⟩
  · exact sizeSweep_emitted _ (fun r => r.1 ≤ r.2 ∧ r.2 = traces.length)
      (fun S r h => singleBitPass_bounded traces S r h) fuel 16 p hp
  · exact sizeSweep_emitted _ (fun r => r.1 ≤ r.2 ∧ r.2 = traces.length)
      (fun S r h => twoBitPass_bounded traces S r h) fuel 16 p hp
  · exact gshareSweep_emitted traces fuel 7 _ p hp
  · cases hl : tournamentLoop traces tournamentInit with
    | error e => simp [tournamentPredictor, hl] at hp
    | ok final =>
      simp only [tournamentPredictor, hl, List.mem_singleton] at hp
      subst hp
      have := tournamentLoop_le traces tournamentInit final hl
      exact ⟨by simpa [tournamentInit] using this, rfl⟩

theorem reported_pairs_bounded_witness :
    0 ≤ ((3, 8) : Nat × Nat).1 ∧ ((3, 8) : Nat × Nat).1 ≤ ((3, 8) : Nat × Nat).2
      ∧ ((3, 8) : Nat × Nat).2 = historyTrace.length :=
  reported_pairs_bounded historyTrace 10 (3, 8)
    (Or.inr (Or.inr (Or.inr (Or.inr (Or.inl (by decide))))))

/-! ### Traces whose records are all taken -/

theorem takenTrace_reads : TraceReadsAs takenTrace takenRecords :=
  List.Forall₂.cons ⟨by decide, by decide⟩
    (List.Forall₂.cons ⟨by decide, by decide⟩
      (List.Forall₂.cons ⟨by decide, by decide⟩
        (List.Forall₂.cons ⟨by decide, by decide⟩ List.Forall₂.nil)))

theorem Table.write_fill {E : Type} (v : E) (i : Nat) :
    (Table.fill v).write i v = Table.fill v :=
  Table.write_self (Table.fill v) i

theorem tournamentBody_fields (st : TournamentState) (t : Line) (r : TraceRecord)
    (h : ReadsAs t r) :
    ∃ next, tournamentBody st t = Except.ok next
      ∧ next.gTable
          = st.gTable.write (gIndexAt st r) (twoBitSwitch (st.gTable (gIndexAt st r)) r.taken).2
      ∧ next.bTable
          = st.bTable.write (bIndexAt r) (twoBitSwitch (st.bTable (bIndexAt r)) r.taken).2
      ∧ next.selectorTable
          = st.selectorTable.write (bIndexAt r)
              (specSelectorStep (gCorrectAt st r) (bCorrectAt st r)
                (st.selectorTable (bIndexAt r)))
      ∧ next.ghr = shiftHistory st.ghr r.taken
      ∧ next.correct
          = if ((specSelectorStep (gCorrectAt st r) (bCorrectAt st r)
                    (st.selectorTable (bIndexAt r))).toInt ≤ WeaklyGShare.toInt
                  ∧ gCorrectAt st r = true)
                ∨ ((specSelectorStep (gCorrectAt st r) (bCorrectAt st r)
                    (st.selectorTable (bIndexAt r))).toInt ≥ WeaklyBimodal.toInt
                  ∧ bCorrectAt st r = true)
              then st.correct + 1 else st.correct :=
  ⟨_, tournamentBody_eq st t r h, rfl, rfl, rfl, rfl, rfl⟩

theorem singleBitLoop_taken (S : Nat) (hpos : 0 < S) (hle : S ≤ 2 ^ 64)
    (traces : List Line) (recs : List TraceRecord) (h : TraceReadsAs traces recs)
    (hT : ∀ r ∈ recs, r.outcome = TAKEN_CHAR) (correct : Nat) :
    singleBitLoop S traces (Table.fill Taken) correct
      = Except.ok (Table.fill Taken, correct + traces.length) := by
  induction traces generalizing recs correct with
  | nil => rfl
  | cons t ts ih =>
    obtain ⟨r, rs, rfl, hhead, htail⟩ := traceReadsAs_cons_inv h
    have hr := hT r (List.mem_cons_self r rs)
    have hlt : r.address % S < S := Nat.mod_lt _ hpos
    have hbody : singleBitBody S (Table.fill Taken) correct t
        = Except.ok (Table.fill Taken, correct + 1) := by
      simp [singleBitBody, hhead.1, hhead.2, toSizeT_tmod r.address S hpos hle, hlt, hr,
        Table.fill]
    simp only [singleBitLoop, hbody]
    rw [ih rs htail (fun x hx => hT x (List.mem_cons_of_mem r hx)), List.length_cons]
    congr 2
    omega

theorem twoBitLoop_taken (S : Nat) (hpos : 0 < S) (hle : S ≤ 2 ^ 64)
    (traces : List Line) (recs : List TraceRecord) (h : TraceReadsAs traces recs)
    (hT : ∀ r ∈ recs, r.outcome = TAKEN_CHAR) (correct : Nat) :
    twoBitLoop S traces (Table.fill StronglyTaken) correct
      = Except.ok (Table.fill StronglyTaken, correct + traces.length) := by
  induction traces generalizing recs correct with
  | nil => rfl
  | cons t ts ih =>
    obtain ⟨r, rs, rfl, hhead, htail⟩ := traceReadsAs_cons_inv h
    have hr := hT r (List.mem_cons_self r rs)
    have hlt : r.address % S < S := Nat.mod_lt _ hpos
    have hbody : twoBitBody S (Table.fill StronglyTaken) correct t
        = Except.ok (Table.fill StronglyTaken, correct + 1) := by
      simp only [twoBitBody, hhead.1, hhead.2, toSizeT_tmod r.address S hpos hle, hlt, hr,
        if_true, decide_True]
      have hcell : (Table.fill StronglyTaken : Table TwoBitSaturatingHistory) (r.address % S)
          = StronglyTaken := rfl
      rw [hcell]
      simp only [twoBitSwitch, if_true, Bool.toNat_true, Table.write_fill]
    simp only [twoBitLoop, hbody]
    rw [ih rs htail (fun x hx => hT x (List.mem_cons_of_mem r hx)), List.length_cons]
    congr 2
    omega

theorem gshareLoop_taken (mask : Nat) (traces : List Line) (recs : List TraceRecord)
    (h : TraceReadsAs traces recs) (hT : ∀ r ∈ recs, r.outcome = TAKEN_CHAR)
    (ghr correct : Nat) :
    ∃ final, gshareLoop mask traces ⟨Table.fill StronglyTaken, ghr, correct⟩
        = Except.ok final
      ∧ final.table = Table.fill StronglyTaken ∧ final.correct = correct + traces.length := by
  induction traces generalizing recs ghr correct with
  | nil => exact ⟨_, rfl, rfl, rfl⟩
  | cons t ts ih =>
    obtain ⟨r, rs, rfl, hhead, htail⟩ := traceReadsAs_cons_inv h
    have hr := hT r (List.mem_cons_self r rs)
    have hlt : (r.address ^^^ (ghr &&& mask)) % 2048 < 2048 := Nat.mod_lt _ (by decide)
    have hbody : gshareBody mask ⟨Table.fill StronglyTaken, ghr, correct⟩ t
        = Except.ok ⟨Table.fill StronglyTaken, shiftHistory ghr true, correct + 1⟩ := by
      simp only [gshareBody, hhead.1, hhead.2, toSizeT_tmod_xor, hlt, hr, if_true, decide_True]
      have hcell : (Table.fill StronglyTaken : Table TwoBitSaturatingHistory)
          ((r.address ^^^ (ghr &&& mask)) % 2048) = StronglyTaken := rfl
      rw [hcell]
      simp only [twoBitSwitch, if_true, Bool.toNat_true, Table.write_fill]
    obtain ⟨final, hfinal, htable, hcorrect⟩ :=
      ih rs htail (fun x hx => hT x (List.mem_cons_of_mem r hx)) (shiftHistory ghr true)
        (correct + 1)
    refine ⟨final, ?_, htable, ?_⟩
    · simp only [gshareLoop, hbody, hfinal]
    · rw [hcorrect, List.length_cons]
      omega

theorem tournamentLoop_taken (traces : List Line) (recs : List TraceRecord)
    (h : TraceReadsAs traces recs) (hT : ∀ r ∈ recs, r.outcome = TAKEN_CHAR)
    (st : TournamentState) (hg : st.gTable = Table.fill StronglyTaken)
    (hb : st.bTable = Table.fill StronglyTaken)
    (hs : st.selectorTable = Table.fill StronglyGShare) :
    ∃ final, tournamentLoop traces st = Except.ok final
      ∧ final.gTable = Table.fill StronglyTaken ∧ final.bTable = Table.fill StronglyTaken
      ∧ final.selectorTable = Table.fill StronglyGShare
      ∧ final.correct = st.correct + traces.length := by
  induction traces generalizing recs st with
  | nil => exact ⟨st, rfl, hg, hb, hs, rfl⟩
  | cons t ts ih =>
    obtain ⟨r, rs, rfl, hhead, htail⟩ := traceReadsAs_cons_inv h
    have hr : r.taken = true := by
      simp [TraceRecord.taken, hT r (List.mem_cons_self r rs)]
    obtain ⟨next, hnext, hng, hnb, hns, _, hnc⟩ := tournamentBody_fields st t r hhead
    have hgc : gCorrectAt st r = true := by
      simp [gCorrectAt, hg, hr, Table.fill, TwoBitSaturatingHistory.toInt]
    have hbc : bCorrectAt st r = true := by
      simp [bCorrectAt, hb, hr, Table.fill, TwoBitSaturatingHistory.toInt]
    have hsel : st.selectorTable (bIndexAt r) = StronglyGShare := by rw [hs]; rfl
    have hgcell : st.gTable (gIndexAt st r) = StronglyTaken := by rw [hg]; rfl
    have hbcell : st.bTable (bIndexAt r) = StronglyTaken := by rw [hb]; rfl
    rw [hgcell, hr, hg] at hng
    rw [hbcell, hr, hb] at hnb
    rw [hgc, hbc, hsel, hs] at hns
    rw [hgc, hbc, hsel] at hnc
    have hng' : next.gTable = Table.fill StronglyTaken := by
      rw [hng]
      exact Table.write_fill StronglyTaken _
    have hnb' : next.bTable = Table.fill StronglyTaken := by
      rw [hnb]
      exact Table.write_fill StronglyTaken _
    have hns' : next.selectorTable = Table.fill StronglyGShare := by
      rw [hns]
      exact Table.write_fill StronglyGShare _
    have hnc' : next.correct = st.correct + 1 := by
      rw [hnc]
      exact if_pos (Or.inl (by decide))
    obtain ⟨final, hfinal, hfg, hfb, hfs, hfc⟩ :=
      ih rs htail (fun x hx => hT x (List.mem_cons_of_mem r hx)) next hng' hnb' hns'
    refine ⟨final, ?_, hfg, hfb, hfs, ?_⟩
    · simp only [tournamentLoop, hnext, hfinal]
    · rw [hfc, hnc', List.length_cons]
      omega

/-- C19. For every trace that reads as records all of whose outcomes are taken (whatever
their addresses), every stateful predictor reports `correct = total` in every
configuration: `singleBitBimodalPredictor` and `twoBitBimodalPredictor` for each of the 7
sizes, `gsharePredictor` for each of the 9 masks, and `tournamentPredictor`; and after the
trace (hence after each of its records, a beginning of such a trace being such a trace)
every table cell is at its start state, `Taken`, `StronglyTaken` or `StronglyGShare`. -/
theorem all_taken_trace_all_correct (traces : List Line) (recs : List TraceRecord)
    (h : TraceReadsAs traces recs) (hT : ∀ r ∈ recs, r.outcome = TAKEN_CHAR)
    (fuel : Nat) (hfuel : 10 ≤ fuel) :
    singleBitBimodalPredictor fuel traces
        = ⟨List.replicate 7 (traces.length, traces.length), Status.completed⟩
      ∧ twoBitBimodalPredictor fuel traces
        = ⟨List.replicate 7 (traces.length, traces.length), Status.completed⟩
      ∧ gsharePredictor fuel traces
        = ⟨List.replicate 9 (traces.length, traces.length), Status.completed⟩
      ∧ tournamentPredictor traces = ⟨[(traces.length, traces.length)], Status.completed⟩
      ∧ (∀ S ∈ sweepSizes, singleBitLoop S traces (Table.fill Taken) 0
          = Except.ok (Table.fill Taken, traces.length))
      ∧ (∀ S ∈ sweepSizes, twoBitLoop S traces (Table.fill StronglyTaken) 0
          = Except.ok (Table.fill StronglyTaken, traces.length))
      ∧ (∀ mask ∈ sweepMasks, ∃ final,
          gshareLoop mask traces ⟨Table.fill StronglyTaken, 0, 0⟩ = Except.ok final
            ∧ final.table = Table.fill StronglyTaken ∧ final.correct = traces.length)
      ∧ (∃ final, tournamentLoop traces tournamentInit = Except.ok final
          ∧ final.gTable = Table.fill StronglyTaken ∧ final.bTable = Table.fill StronglyTaken
          ∧ final.selectorTable = Table.fill StronglyGShare
          ∧ final.correct = traces.length) := by
  have hsingle : ∀ S ∈ sweepSizes, singleBitLoop S traces (Table.fill Taken) 0
      = Except.ok (Table.fill Taken, traces.length) := by
    intro S hS
    rw [singleBitLoop_taken S (sweepSizes_bounds hS).1 (sweepSizes_bounds hS).2 traces recs h
      hT 0, Nat.zero_add]
  have htwo : ∀ S ∈ sweepSizes, twoBitLoop S traces (Table.fill StronglyTaken) 0
      = Except.ok (Table.fill StronglyTaken, traces.length) := by
    intro S hS
    rw [twoBitLoop_taken S (sweepSizes_bounds hS).1 (sweepSizes_bounds hS).2 traces recs h
      hT 0, Nat.zero_add]
  have hgshare : ∀ mask, ∃ final,
      gshareLoop mask traces ⟨Table.fill StronglyTaken, 0, 0⟩ = Except.ok final
        ∧ final.table = Table.fill StronglyTaken ∧ final.correct = traces.length := by
    intro mask
    obtain ⟨final, hfinal, htable, hcorrect⟩ := gshareLoop_taken mask traces recs h hT 0 0
    exact ⟨final, hfinal, htable, by rw [hcorrect, Nat.zero_add]⟩
  obtain ⟨tfinal, htfinal, htg, htb, hts, htc⟩ :=
    tournamentLoop_taken traces recs h hT tournamentInit rfl rfl rfl
  have htc' : tfinal.correct = traces.length := by
    rw [htc]
    exact Nat.zero_add _
  refine ⟨?_, ?_, ?_, ?_, hsingle, htwo, fun mask _ => hgshare mask,
    ⟨tfinal, htfinal, htg, htb, hts, htc'⟩⟩
  · unfold singleBitBimodalPredictor
    rw [sizeSweep_of_ok _ (fun _ => (traces.length, traces.length)) _ fuel (by omega)]
    · rfl
    · intro S hS
      simp only [singleBitPass, hsingle S hS]
  · unfold twoBitBimodalPredictor
    rw [sizeSweep_of_ok _ (fun _ => (traces.length, traces.length)) _ fuel (by omega)]
    · rfl
    · intro S hS
      simp only [twoBitPass, htwo S hS]
  · choose f hok _ hcorrect using hgshare
    unfold gsharePredictor
    rw [gshareSweep_of_ok traces f (fun m _ => hok m) fuel hfuel]
    simp only [hcorrect]
    rfl
  · simp only [tournamentPredictor, htfinal, htc']

theorem all_taken_trace_all_correct_witness :
    singleBitBimodalPredictor 10 takenTrace = ⟨List.replicate 7 (4, 4), Status.completed⟩
      ∧ twoBitBimodalPredictor 10 takenTrace = ⟨List.replicate 7 (4, 4), Status.completed⟩
      ∧ gsharePredictor 10 takenTrace = ⟨List.replicate 9 (4, 4), Status.completed⟩
      ∧ tournamentPredictor takenTrace = ⟨[(4, 4)], Status.completed⟩ :=
  have h := all_taken_trace_all_correct takenTrace takenRecords takenTrace_reads
    (by decide) 10 (by decide)
  ⟨h.1, h.2.1, h.2.2.1, h.2.2.2.1⟩

/-! ### Runs of the tournament on which the gshare-style sub-prediction is always correct -/

theorem specSelectorStep_gshare_correct (bCorrect : Bool) :
    specSelectorStep true bCorrect StronglyGShare = StronglyGShare := by
  cases bCorrect <;> rfl

theorem tournament_gshare_correct_run (traces : List Line) (recs : List TraceRecord)
    (h : TraceReadsAs traces recs) (st : TournamentState)
    (hs : st.selectorTable = Table.fill StronglyGShare)
    (hg : ∀ p ∈ (tournamentStatesBefore traces st).zip recs, gCorrectAt p.1 p.2 = true) :
    (∀ s ∈ tournamentStatesBefore traces st, s.selectorTable = Table.fill StronglyGShare)
      ∧ ∃ final, tournamentLoop traces st = Except.ok final
          ∧ final.selectorTable = Table.fill StronglyGShare
          ∧ final.correct = st.correct + traces.length := by
  induction traces generalizing recs st with
  | nil =>
    refine ⟨?_, st, rfl, hs, rfl⟩
    intro s hmem
    simp [tournamentStatesBefore] at hmem
  | cons t ts ih =>
    obtain ⟨r, rs, rfl, hhead, htail⟩ := traceReadsAs_cons_inv h
    obtain ⟨next, hnext, _, _, hns, _, hnc⟩ := tournamentBody_fields st t r hhead
    have hstates : tournamentStatesBefore (t :: ts) st = st :: tournamentStatesBefore ts next := by
      simp only [tournamentStatesBefore, hnext]
    rw [hstates, List.zip_cons_cons] at hg
    have hgc : gCorrectAt st r = true := hg (st, r) (List.mem_cons_self _ _)
    have hsel : st.selectorTable (bIndexAt r) = StronglyGShare := by rw [hs]; rfl
    rw [hgc, hsel, specSelectorStep_gshare_correct, hs] at hns
    rw [hgc, hsel, specSelectorStep_gshare_correct] at hnc
    have hns' : next.selectorTable = Table.fill StronglyGShare := by
      rw [hns]
      exact Table.write_fill StronglyGShare _
    have hnc' : next.correct = st.correct + 1 := by
      rw [hnc]
      exact if_pos (Or.inl ⟨by decide, rfl⟩)
    obtain ⟨hall, final, hfinal, hfs, hfc⟩ :=
      ih rs htail next hns' (fun p hp => hg p (List.mem_cons_of_mem _ hp))
    refine ⟨?_, final, ?_, hfs, ?_⟩
    · intro s hmem
      rw [hstates] at hmem
      rcases List.mem_cons.mp hmem with rfl | hmem'
      · exact hs
      · exact hall s hmem'
    · simp only [tournamentLoop, hnext, hfinal]
    · rw [hfc, hnc', List.length_cons]
      omega

/-- C20. For every trace that reads as records and on which the gshare-style
sub-prediction of `tournamentPredictor` is correct at every record (whatever the
bimodal-style sub-prediction does), every selector cell is at `StronglyGShare` before every
record and after the last one, and the predictor returns after writing
`correct = total = ` the number of records. -/
theorem gshare_always_correct_keeps_selector (traces : List Line) (recs : List TraceRecord)
    (h : TraceReadsAs traces recs)
    (hg : ∀ p ∈ (tournamentStatesBefore traces tournamentInit).zip recs,
      gCorrectAt p.1 p.2 = true) :
    (∀ s ∈ tournamentStatesBefore traces tournamentInit, ∀ j,
        s.selectorTable j = StronglyGShare)
      ∧ (∃ final, tournamentLoop traces tournamentInit = Except.ok final
          ∧ ∀ j, final.selectorTable j = StronglyGShare)
      ∧ tournamentPredictor traces = ⟨[(traces.length, traces.length)], Status.completed⟩ := by
  obtain ⟨hall, final, hfinal, hfs, hfc⟩ :=
    tournament_gshare_correct_run traces recs h tournamentInit rfl hg
  have hfc' : final.correct = traces.length := by
    rw [hfc]
    exact Nat.zero_add _
  refine ⟨?_, ⟨final, hfinal, ?_⟩, ?_⟩
  · intro s hmem j
    rw [hall s hmem]
    rfl
  · intro j
    rw [hfs]
    rfl
  · simp only [tournamentPredictor, hfinal, hfc']

theorem gshare_always_correct_keeps_selector_witness :
    (∀ s ∈ tournamentStatesBefore takenTrace tournamentInit, ∀ j,
        s.selectorTable j = StronglyGShare)
      ∧ (∃ final, tournamentLoop takenTrace tournamentInit = Except.ok final
          ∧ ∀ j, final.selectorTable j = StronglyGShare)
      ∧ tournamentPredictor takenTrace = ⟨[(takenTrace.length, takenTrace.length)],
          Status.completed⟩ :=
  gshare_always_correct_keeps_selector takenTrace takenRecords takenTrace_reads (by decide)

/-! ### The sub-predictors of the tournament -/

theorem tournament_first_record_agrees (r : TraceRecord) :
    gCorrectAt tournamentInit r = bCorrectAt tournamentInit r :=
  rfl

theorem gshareBody_eq (mask : Nat) (st : GShareState) (t : Line) (r : TraceRecord)
    (h : ReadsAs t r) :
    gshareBody mask st t = Except.ok
      ⟨st.table.write ((r.address ^^^ (st.ghr &&& mask)) % 2048)
          (twoBitSwitch (st.table ((r.address ^^^ (st.ghr &&& mask)) % 2048)) r.taken).2,
        shiftHistory st.ghr r.taken,
        st.correct
          + (twoBitSwitch (st.table ((r.address ^^^ (st.ghr &&& mask)) % 2048)) r.taken).1⟩ := by
  have hlt : (r.address ^^^ (st.ghr &&& mask)) % 2048 < 2048 := Nat.mod_lt _ (by decide)
  simp only [gshareBody, h.1, h.2, toSizeT_tmod_xor, hlt, if_true, TraceRecord.taken]

theorem twoBitBody_eq (S : Nat) (hpos : 0 < S) (hle : S ≤ 2 ^ 64)
    (table : Table TwoBitSaturatingHistory) (correct : Nat) (t : Line) (r : TraceRecord)
    (h : ReadsAs t r) :
    twoBitBody S table correct t = Except.ok
      (table.write (r.address % S) (twoBitSwitch (table (r.address % S)) r.taken).2,
        correct + (twoBitSwitch (table (r.address % S)) r.taken).1) := by
  have hlt : r.address % S < S := Nat.mod_lt _ hpos
  simp only [twoBitBody, h.1, h.2, toSizeT_tmod r.address S hpos hle, hlt, if_true,
    TraceRecord.taken]

theorem twoBitSwitch_count_flag (entry : TwoBitSaturatingHistory) (isTaken : Bool) :
    (twoBitSwitch entry isTaken).1
      = if (decide (decide (entry.toInt < WeaklyNotTaken.toInt) = isTaken)) = true
          then 1 else 0 := by
  cases entry <;> cases isTaken <;> decide

theorem and_mask_of_lt (ghr : Nat) (h : ghr < 2048) : ghr &&& 2047 = ghr := by
  have hmod := Nat.and_pow_two_sub_one_eq_mod ghr 11
  have hlit : (2 : Nat) ^ 11 - 1 = 2047 := by decide
  rw [hlit] at hmod
  rw [hmod]
  exact Nat.mod_eq_of_lt h

theorem shiftHistory_lt (ghr : Nat) (b : Bool) : shiftHistory ghr b < 2048 := by
  unfold shiftHistory
  exact Nat.mod_lt _ (by decide)

theorem tournament_simulates (traces : List Line) (recs : List TraceRecord)
    (h : TraceReadsAs traces recs) (st : TournamentState) (g : GShareState)
    (bt : Table TwoBitSaturatingHistory) (bc : Nat)
    (hg : st.gTable = g.table) (hh : st.ghr = g.ghr) (hlt : g.ghr < 2048)
    (hb : st.bTable = bt) :
    ∃ tfinal gfinal bfinal,
      tournamentLoop traces st = Except.ok tfinal
        ∧ gshareLoop 2047 traces g = Except.ok gfinal
        ∧ twoBitLoop 2048 traces bt bc = Except.ok bfinal
        ∧ tfinal.gTable = gfinal.table ∧ tfinal.ghr = gfinal.ghr ∧ gfinal.ghr < 2048
        ∧ tfinal.bTable = bfinal.1
        ∧ gfinal.correct = g.correct
            + ((tournamentStatesBefore traces st).zip recs).countP
                (fun p => gCorrectAt p.1 p.2)
        ∧ bfinal.2 = bc
            + ((tournamentStatesBefore traces st).zip recs).countP
                (fun p => bCorrectAt p.1 p.2) := by
  induction traces generalizing recs st g bt bc with
  | nil =>
    rw [traceReadsAs_nil_inv h]
    exact ⟨st, g, (bt, bc), rfl, rfl, rfl, hg, hh, hlt, hb, by simp [tournamentStatesBefore],
      by simp [tournamentStatesBefore]⟩
  | cons t ts ih =>
    obtain ⟨r, rs, rfl, hhead, htail⟩ := traceReadsAs_cons_inv h
    obtain ⟨next, hnext, hng, hnb, _, hnh, _⟩ := tournamentBody_fields st t r hhead
    have hgbody := gshareBody_eq 2047 g t r hhead
    have hbbody := twoBitBody_eq 2048 (by decide) (by decide) bt bc t r hhead
    have hidx : (r.address ^^^ (g.ghr &&& 2047)) % 2048 = gIndexAt st r := by
      rw [and_mask_of_lt g.ghr hlt, gIndexAt, hh]
    rw [hidx] at hgbody
    have hstates : tournamentStatesBefore (t :: ts) st = st :: tournamentStatesBefore ts next := by
      simp only [tournamentStatesBefore, hnext]
    obtain ⟨tfinal, gfinal, bfinal, htf, hgf, hbf, e1, e2, e3, e4, e5, e6⟩ :=
      ih rs htail next
        ⟨g.table.write (gIndexAt st r) (twoBitSwitch (g.table (gIndexAt st r)) r.taken).2,
          shiftHistory g.ghr r.taken,
          g.correct + (twoBitSwitch (g.table (gIndexAt st r)) r.taken).1⟩
        (bt.write (r.address % 2048) (twoBitSwitch (bt (r.address % 2048)) r.taken).2)
        (bc + (twoBitSwitch (bt (r.address % 2048)) r.taken).1)
        (by rw [hng, hg]) (by rw [hnh, hh]) (shiftHistory_lt g.ghr r.taken)
        (by rw [hnb, hb]; rfl)
    refine ⟨tfinal, gfinal, bfinal, ?_, ?_, ?_, e1, e2, e3, e4, ?_, ?_⟩
    · simp only [tournamentLoop, hnext, htf]
    · simp only [gshareLoop, hgbody, hgf]
    · simp only [twoBitLoop, hbbody]
      exact hbf
    · rw [e5, hstates, List.zip_cons_cons, List.countP_cons, twoBitSwitch_count_flag]
      simp only [gCorrectAt, hg]
      omega
    · rw [e6, hstates, List.zip_cons_cons, List.countP_cons, twoBitSwitch_count_flag]
      simp only [bCorrectAt, bIndexAt, hb]
      omega

/-- C16. In `tournamentPredictor` both sub-predictor tables learn on every record
whatever the selector holds.  For every trace that reads as records (so after every
record, a beginning of such a trace being such a trace): the gshare-style table and the
history register are those of `gsharePredictor` run with the mask `0x7FF`, hence the next
gshare-style index is the one `gsharePredictor` computes; the bimodal-style table is that
of `twoBitBimodalPredictor` run with the size 2048, the index `address mod 2048` being the
same; the lambda `updateSaturating` is the transition of the `switch`.  The number of
records at which the gshare-style sub-prediction was correct is the last result of
`gsharePredictor`, and the number at which the bimodal-style one was correct is the last
result of `twoBitBimodalPredictor`. -/
theorem tournament_subpredictors_match (traces : List Line) (recs : List TraceRecord)
    (h : TraceReadsAs traces recs) (fuel : Nat) (hfuel : 10 ≤ fuel) :
    ∃ tfinal gfinal bfinal,
      tournamentLoop traces tournamentInit = Except.ok tfinal
        ∧ gshareLoop 0x7FF traces ⟨Table.fill StronglyTaken, 0, 0⟩ = Except.ok gfinal
        ∧ twoBitLoop 2048 traces (Table.fill StronglyTaken) 0 = Except.ok bfinal
        ∧ tfinal.gTable = gfinal.table ∧ tfinal.ghr = gfinal.ghr
        ∧ tfinal.bTable = bfinal.1
        ∧ (∀ r, gIndexAt tfinal r = (r.address ^^^ (gfinal.ghr &&& 0x7FF)) % 2048)
        ∧ (∀ isTaken entry,
            updateSaturating isTaken entry = Except.ok (twoBitSwitch entry isTaken).2)
        ∧ ((tournamentStatesBefore traces tournamentInit).zip recs).countP
              (fun p => gCorrectAt p.1 p.2) = gfinal.correct
        ∧ ((tournamentStatesBefore traces tournamentInit).zip recs).countP
              (fun p => bCorrectAt p.1 p.2) = bfinal.2
        ∧ (gsharePredictor fuel traces).emitted.getLast?
            = some (((tournamentStatesBefore traces tournamentInit).zip recs).countP
                (fun p => gCorrectAt p.1 p.2), traces.length)
        ∧ (twoBitBimodalPredictor fuel traces).emitted.getLast?
            = some (((tournamentStatesBefore traces tournamentInit).zip recs).countP
                (fun p => bCorrectAt p.1 p.2), traces.length) := by
  obtain ⟨tfinal, gfinal, bfinal, htf, hgf, hbf, e1, e2, e3, e4, e5, e6⟩ :=
    tournament_simulates traces recs h tournamentInit ⟨Table.fill StronglyTaken, 0, 0⟩
      (Table.fill StronglyTaken) 0 rfl rfl (by decide) rfl
  have hgcount : ((tournamentStatesBefore traces tournamentInit).zip recs).countP
      (fun p => gCorrectAt p.1 p.2) = gfinal.correct := by
    rw [e5]
    exact (Nat.zero_add _).symm
  have hbcount : ((tournamentStatesBefore traces tournamentInit).zip recs).countP
      (fun p => bCorrectAt p.1 p.2) = bfinal.2 := by
    rw [e6]
    exact (Nat.zero_add _).symm
  refine ⟨tfinal, gfinal, bfinal, htf, hgf, hbf, e1, e2, e4, ?_, updateSaturating_eq,
    hgcount, hbcount, ?_, ?_⟩
  · intro r
    rw [and_mask_of_lt gfinal.ghr e3, gIndexAt, e2]
  · have hloop : ∀ mask, ∃ final,
        gshareLoop mask traces ⟨Table.fill StronglyTaken, 0, 0⟩ = Except.ok final := by
      intro mask
      obtain ⟨final, hfinal, _⟩ :=
        gshareLoop_eq_spec mask traces recs h ⟨Table.fill StronglyTaken, 0, 0⟩
      exact ⟨final, hfinal⟩
    choose f hok using hloop
    have hlast : f 2047 = gfinal := by
      have h1 := hok 2047
      rw [hgf] at h1
      injection h1 with h1
      exact h1.symm
    unfold gsharePredictor
    rw [gshareSweep_of_ok traces f (fun m _ => hok m) fuel hfuel, hgcount, ← hlast]
    rfl
  · have hpass : ∀ S ∈ sweepSizes, twoBitPass S traces = Except.ok (specTwoBit S recs) :=
      fun S hS => twoBitPass_eq_spec S (sweepSizes_bounds hS).1 (sweepSizes_bounds hS).2
        traces recs h
    have hlast : specTwoBit 2048 recs = (bfinal.2, traces.length) := by
      have h1 := hpass 2048 (by decide)
      simp only [twoBitPass, hbf] at h1
      injection h1 with h1
      exact h1.symm
    unfold twoBitBimodalPredictor
    rw [sizeSweep_of_ok _ _ hpass fuel (by omega), hbcount, ← hlast]
    rfl

theorem tournament_subpredictors_match_witness :
    (gsharePredictor 10 historyTrace).emitted.getLast? = some (3, 8)
      ∧ (twoBitBimodalPredictor 10 historyTrace).emitted.getLast? = some (6, 8)
      ∧ ((tournamentStatesBefore historyTrace tournamentInit).zip historyRecords).countP
            (fun p => gCorrectAt p.1 p.2) = 3
      ∧ ((tournamentStatesBefore historyTrace tournamentInit).zip historyRecords).countP
            (fun p => bCorrectAt p.1 p.2) = 6 := by
  obtain ⟨_, _, _, _, _, _, _, _, _, _, _, _, _, hg, hb⟩ :=
    tournament_subpredictors_match historyTrace historyRecords historyTrace_reads 10
      (by decide)
  have h1 : (gsharePredictor 10 historyTrace).emitted.getLast? = some (3, 8) := by decide
  have h2 : (twoBitBimodalPredictor 10 historyTrace).emitted.getLast? = some (6, 8) := by
    decide
  rw [h1] at hg
  rw [h2] at hb
  injection hg with hg
  injection hb with hb
  injection hg with hg _
  injection hb with hb _
  exact ⟨h1, h2, hg.symm, hb.symm⟩

/-! ### The configurations of a sweep do not influence each other -/

theorem sizeSequence_eq (fuel : Nat) (hfuel : 8 ≤ fuel) : sizeSequence fuel 16 = sweepSizes := by
  obtain ⟨k, rfl⟩ : ∃ k, fuel = k + 8 := ⟨fuel - 8, by omega⟩
  rfl

theorem maskSequence_eq (fuel : Nat) (hfuel : 10 ≤ fuel) : maskSequence fuel 7 = sweepMasks := by
  obtain ⟨k, rfl⟩ : ∃ k, fuel = k + 10 := ⟨fuel - 10, by omega⟩
  rfl

theorem sizeSweep_emitted_take (pass : Nat → Except Failure (Nat × Nat)) (fuel size : Nat) :
    (sizeSweep pass fuel size).emitted.map Except.ok
      = ((sizeSequence fuel size).map pass).take (sizeSweep pass fuel size).emitted.length := by
  induction fuel generalizing size with
  | zero => simp [sizeSweep]
  | succ fuel ih =>
    by_cases hsize : size ≤ 2048
    · cases hr : pass size with
      | error e => simp [sizeSweep, hsize, hr]
      | ok r =>
        simp only [sizeSweep, sizeSequence, hsize, if_true, hr, List.map_cons,
          List.length_cons, List.take_succ_cons]
        rw [← ih]
    · simp [sizeSweep, hsize]

theorem sizeSweep_completed (pass : Nat → Except Failure (Nat × Nat)) (fuel size : Nat)
    (hdone : (sizeSweep pass fuel size).status = Status.completed) :
    (sizeSweep pass fuel size).emitted.map Except.ok = (sizeSequence fuel size).map pass := by
  induction fuel generalizing size with
  | zero => simp [sizeSweep] at hdone
  | succ fuel ih =>
    by_cases hsize : size ≤ 2048
    · cases hr : pass size with
      | error e => simp [sizeSweep, hsize, hr] at hdone
      | ok r =>
        simp only [sizeSweep, hsize, if_true, hr] at hdone
        simp only [sizeSweep, sizeSequence, hsize, if_true, hr, List.map_cons]
        rw [ih _ hdone]
    · simp [sizeSweep, sizeSequence, hsize]

theorem gshareSweep_fresh (traces : List Line) (fuel mask : Nat)
    (table : Table TwoBitSaturatingHistory)
    (htail : ∀ j, 2048 ≤ j → table j = StronglyTaken) :
    gshareSweep traces fuel mask table
      = gshareSweep traces fuel mask (Table.fill StronglyTaken) := by
  cases fuel with
  | zero => rfl
  | succ fuel =>
    simp only [gshareSweep, Table.refill_of_tail table htail,
      Table.refill_of_tail (Table.fill StronglyTaken) (fun _ _ => rfl)]

theorem gshareSweep_emitted_take (traces : List Line) (fuel mask : Nat)
    (table : Table TwoBitSaturatingHistory)
    (htail : ∀ j, 2048 ≤ j → table j = StronglyTaken) :
    (gshareSweep traces fuel mask table).emitted.map Except.ok
      = ((maskSequence fuel mask).map (fun m => gsharePass m traces)).take
          (gshareSweep traces fuel mask table).emitted.length := by
  induction fuel generalizing mask table with
  | zero => simp [gshareSweep]
  | succ fuel ih =>
    by_cases hmask : mask ≤ 2047
    · cases hr : gshareLoop mask traces ⟨Table.fill StronglyTaken, 0, 0⟩ with
      | error e => simp [gshareSweep, hmask, Table.refill_of_tail table htail, hr]
      | ok final =>
        have htail' := gshareLoop_tail mask traces _ final hr (fun _ _ => rfl)
        have hpass : gsharePass mask traces = Except.ok (final.correct, traces.length) := by
          simp only [gsharePass, hr]
        simp only [gshareSweep, maskSequence, hmask, if_true,
          Table.refill_of_tail table htail, hr, List.map_cons, List.length_cons,
          List.take_succ_cons, hpass]
        rw [← ih _ _ htail']
    · simp [gshareSweep, hmask]

theorem gshareSweep_completed (traces : List Line) (fuel mask : Nat)
    (table : Table TwoBitSaturatingHistory)
    (htail : ∀ j, 2048 ≤ j → table j = StronglyTaken)
    (hdone : (gshareSweep traces fuel mask table).status = Status.completed) :
    (gshareSweep traces fuel mask table).emitted.map Except.ok
      = (maskSequence fuel mask).map (fun m => gsharePass m traces) := by
  induction fuel generalizing mask table with
  | zero => simp [gshareSweep] at hdone
  | succ fuel ih =>
    by_cases hmask : mask ≤ 2047
    · cases hr : gshareLoop mask traces ⟨Table.fill StronglyTaken, 0, 0⟩ with
      | error e => simp [gshareSweep, hmask, Table.refill_of_tail table htail, hr] at hdone
      | ok final =>
        have htail' := gshareLoop_tail mask traces _ final hr (fun _ _ => rfl)
        have hpass : gsharePass mask traces = Except.ok (final.correct, traces.length) := by
          simp only [gsharePass, hr]
        simp only [gshareSweep, hmask, if_true, Table.refill_of_tail table htail, hr] at hdone
        simp only [gshareSweep, maskSequence, hmask, if_true,
          Table.refill_of_tail table htail, hr, List.map_cons, hpass]
        rw [ih _ _ htail' hdone]
    · simp [gshareSweep, maskSequence, hmask]

/-- C15. In every sweep predictor the result written for one configuration does not
depend on the other configurations.  For every trace (any lines at all): the pairs a sweep
writes are, in order, the pairs obtained by running each configuration alone on a freshly
initialised table (all cells at the taken-biased start state) and, for gshare, a zero
history register, up to the configuration at which the program stops, and all of them when
the predictor returns; and the gshare table, declared once outside the sweep loop, carries
nothing from one mask to the next: whatever its 2048 cells hold when an iteration starts,
the sweep continues as from a fresh table. -/
theorem sweep_results_independent (traces : List Line) (fuel : Nat) (hfuel : 10 ≤ fuel) :
    ((singleBitBimodalPredictor fuel traces).emitted.map Except.ok
        = (sweepSizes.map (fun size => singleBitPass size traces)).take
            (singleBitBimodalPredictor fuel traces).emitted.length)
      ∧ ((singleBitBimodalPredictor fuel traces).status = Status.completed →
          (singleBitBimodalPredictor fuel traces).emitted.map Except.ok
            = sweepSizes.map (fun size => singleBitPass size traces))
      ∧ ((twoBitBimodalPredictor fuel traces).emitted.map Except.ok
          = (sweepSizes.map (fun size => twoBitPass size traces)).take
              (twoBitBimodalPredictor fuel traces).emitted.length)
      ∧ ((twoBitBimodalPredictor fuel traces).status = Status.completed →
          (twoBitBimodalPredictor fuel traces).emitted.map Except.ok
            = sweepSizes.map (fun size => twoBitPass size traces))
      ∧ ((gsharePredictor fuel traces).emitted.map Except.ok
          = (sweepMasks.map (fun mask => gsharePass mask traces)).take
              (gsharePredictor fuel traces).emitted.length)
      ∧ ((gsharePredictor fuel traces).status = Status.completed →
          (gsharePredictor fuel traces).emitted.map Except.ok
            = sweepMasks.map (fun mask => gsharePass mask traces))
      ∧ (∀ (steps mask : Nat) (table : Table TwoBitSaturatingHistory),
          (∀ j, 2048 ≤ j → table j = StronglyTaken) →
          gshareSweep traces steps mask table
            = gshareSweep traces steps mask (Table.fill StronglyTaken)) := by
  have hsizes := sizeSequence_eq fuel (by omega)
  have hmasks := maskSequence_eq fuel hfuel
  refine ⟨?_, ?_, ?_, ?_, ?_, ?_, fun steps mask table htail =>
    gshareSweep_fresh traces steps mask table htail⟩
  · have := sizeSweep_emitted_take (fun size => singleBitPass size traces) fuel 16
    rw [hsizes] at this
    exact this
  · intro hdone
    have := sizeSweep_completed (fun size => singleBitPass size traces) fuel 16 hdone
    rw [hsizes] at this
    exact this
  · have := sizeSweep_emitted_take (fun size => twoBitPass size traces) fuel 16
    rw [hsizes] at this
    exact this
  · intro hdone
    have := sizeSweep_completed (fun size => twoBitPass size traces) fuel 16 hdone
    rw [hsizes] at this
    exact this
  · have := gshareSweep_emitted_take traces fuel 7 (Table.fill StronglyTaken) (fun _ _ => rfl)
    rw [hmasks] at this
    exact this
  · intro hdone
    have := gshareSweep_completed traces fuel 7 (Table.fill StronglyTaken) (fun _ _ => rfl)
      hdone
    rw [hmasks] at this
    exact this

theorem sweep_results_independent_witness :
    (gsharePredictor 10 historyTrace).emitted.map Except.ok
        = sweepMasks.map (fun mask => gsharePass mask historyTrace)
      ∧ (twoBitBimodalPredictor 10 historyTrace).emitted.map Except.ok
        = sweepSizes.map (fun size => twoBitPass size historyTrace)
      ∧ (singleBitBimodalPredictor 10 historyTrace).emitted.map Except.ok
        = sweepSizes.map (fun size => singleBitPass size historyTrace) :=
  have h := sweep_results_independent historyTrace 10 (by decide)
  ⟨h.2.2.2.2.2.1 (by decide), h.2.2.2.1 (by decide), h.2.1 (by decide)⟩

/-! ### Stretches on which gshare alone is correct -/

end BranchPredictor
